import Mathlib

/-!
Verification of the core cuckoo hash table of the `cuckoo` repository
(`cuckoo.go`, `config.go`, `hash.go`).

The Go code is shallowly embedded: machine integers (`uint32`, the 63-bit
output of `rand.Int63`) are modelled as `Nat` with explicit reductions
mod `2^32` / `2^63`; the global `math/rand` source is modelled as an
explicit stream of naturals threaded through every operation; `panic` is
modelled by returning `none`; the one unbounded loop of the package (the
retry loop of `Insert`) takes explicit fuel.
-/

set_option maxRecDepth 1000000

namespace cuckoo

open List

/-! ## Configuration (`config.go`)

```go
bshift                = 3
nhashshift            = 3
shrinkFactor          = 2
rehashThreshold       = 0.9
randomWalkCoefficient = 1
blen      = 1 << bshift
bmask     = blen - 1
nhash     = 1 << nhashshift
nhashmask = nhash - 1
type Key uint32
type Value uint32
```
-/

def bshift : ℕ := 3
def nhashshift : ℕ := 3
def shrinkFactor : ℕ := 2
def randomWalkCoefficient : ℕ := 1
def blen : ℕ := 1 <<< bshift
def bmask : ℕ := blen - 1
def nhash : ℕ := 1 <<< nhashshift
def nhashmask : ℕ := nhash - 1

/-- `rehashThreshold = 0.9`.  The Go code compares `c.LoadFactor() < 0.9`
in `float64`; since `nentries ≤ 2^32` and the capacity is a power of two,
the `float64` computation of `LoadFactor` is exact and the comparison with
the `float64` literal `0.9` (which is slightly above `9/10`) agrees with
the exact rational comparison against `9/10` for every representable
load factor, so we model the threshold as the rational `9/10`. -/
def rehashThreshold : ℚ := mkRat 9 10

/-- Keys are `uint32`; naturals `< 2^32` represent them. -/
abbrev Key := ℕ

/-- Values are `uint32` in `config.go` (a fixed-size opaque payload). -/
abbrev Value := ℕ

/-- Modelled from the spec: the constant `hashBits` (the bound `Lmax` on
the internal `logsize`) is declared in a file of the repository that is
not part of the sources given to us; only its uses in `NewCuckoo` and
`tryGrow` are.  The spec fixes `Lmax = 32 − bshift`. -/
def hashBits : ℕ := 32 - bshift

/-! ## Hash kit (`hash.go`) -/

/-- Reduction mod `2^32`, the implicit wrap-around of Go `uint32` arithmetic. -/
def m32 (x : ℕ) : ℕ := x % 4294967296

/-- `xx_32` from `hash.go` (an xxHash-style full-avalanche mixer):

```go
h := seed + xx_prime32_5
h += k * xx_prime32_3
h = ((h << 17) | (h >> (32 - 17))) * xx_prime32_4
h ^= h >> 15
h *= xx_prime32_2
h ^= h >> 13
h *= xx_prime32_3
h ^= h >> 16
```
-/
def xx_32 (k seed : ℕ) : ℕ :=
  let h1 := m32 (seed + 374761393)
  let h2 := m32 (h1 + k * 3266489917)
  let h3 := m32 ((m32 (h2 <<< 17) ||| (h2 >>> 15)) * 668265263)
  let h4 := h3 ^^^ (h3 >>> 15)
  let h5 := m32 (h4 * 2246822519)
  let h6 := h5 ^^^ (h5 >>> 13)
  let h7 := m32 (h6 * 3266489917)
  h7 ^^^ (h7 >>> 16)

/-- `defaultHash(k, seed) = hash(xx_32(uint32(k), uint32(seed)))`. -/
def defaultHash (k : Key) (seed : ℕ) : ℕ := xx_32 (m32 k) (m32 seed)

/-! ## Random source

The Go code draws from the global `math/rand` source (`rand.Uint32` in
`reseed`, `rand.Int63` in `tryGreedyAdd`).  We model the source as a
stream `f : ℕ → ℕ` together with a position; each draw consumes one
stream element. -/

structure RNG where
  f : ℕ → ℕ
  pos : ℕ

/-- One draw of `rand.Uint32()`. -/
def RNG.next32 (g : RNG) : ℕ × RNG :=
  (g.f g.pos % 4294967296, ⟨g.f, g.pos + 1⟩)

/-- One draw of `rand.Int63()` (a non-negative 63-bit value). -/
def RNG.next63 (g : RNG) : ℕ × RNG :=
  (g.f g.pos % 9223372036854775808, ⟨g.f, g.pos + 1⟩)

/-! ## Data model (`cuckoo.go`)

A bucket is a fixed array of `blen` key/value pairs; the Go struct keeps
the keys and the values in two parallel arrays (`keys [blen]Key`,
`vals [blen]Value`) that are always read and written at a common index,
so we model a bucket as a list of `blen` slots. -/

abbrev Slot := Key × Value

abbrev Bucket := List Slot

/-- A fresh (all-empty) bucket: key 0 marks an empty slot. -/
def zeroBucket : Bucket := List.replicate blen (0, 0)

/-- `alloc(n)` makes `n` fresh buckets. -/
def alloc (n : ℕ) : List Bucket := List.replicate n zeroBucket

/-- The `Cuckoo` struct.  `nentries` is a Go `int`, modelled as `ℤ`;
the diagnostic counters are only ever incremented and are modelled as `ℕ`. -/
structure Cuckoo where
  logsize : ℕ
  buckets : List Bucket
  nentries : ℤ
  ngrow : ℕ
  nshrink : ℕ
  nrehash : ℕ
  zeroValue : Value
  zeroIsSet : Bool
  eitem : Bool
  ekey : Key
  eval : Value
  seed : List ℕ
deriving DecidableEq

/-- `reseed` draws `nhash` fresh seeds (`seed[0]` first). -/
def drawSeeds : ℕ → RNG → List ℕ × RNG
  | 0, g => ([], g)
  | n + 1, g =>
    let (x, g1) := g.next32
    let (rest, g2) := drawSeeds n g1
    (x :: rest, g2)

def reseed (c : Cuckoo) (g : RNG) : Cuckoo × RNG :=
  let (s, g1) := drawSeeds nhash g
  ({ c with seed := s }, g1)

/-- `NewCuckoo(logsize)`:

```go
logsize -= bshift
if logsize <= 0 { logsize = 1 }
if logsize > hashBits { panic(...) }
c := &Cuckoo{buckets: alloc(1 << uint(logsize)), logsize: logsize}
c.reseed()
```

`none` models the panic. -/
def NewCuckoo (logsize : ℤ) (g : RNG) : Option (Cuckoo × RNG) :=
  let ls0 : ℤ := logsize - bshift
  let ls : ℤ := if ls0 ≤ 0 then 1 else ls0
  if ls > hashBits then none
  else
    let c : Cuckoo :=
      { logsize := ls.toNat
        buckets := alloc (1 <<< ls.toNat)
        nentries := 0
        ngrow := 0
        nshrink := 0
        nrehash := 0
        zeroValue := 0
        zeroIsSet := false
        eitem := false
        ekey := 0
        eval := 0
        seed := List.replicate nhash 0 }
    some (reseed c g)

/-- `Len` returns `c.nentries`. -/
def Len (c : Cuckoo) : ℤ := c.nentries

/-- `dohash` computes the `nhash` masked candidate bucket indices:
`h[i] = defaultHash(key, c.seed[i]) & ((1 << logsize) - 1)`. -/
def dohash (c : Cuckoo) (k : Key) : List ℕ :=
  c.seed.map fun s => defaultHash k s &&& ((1 <<< c.logsize) - 1)

/-- Swap two positions of a list (used by the Fisher–Yates shuffle). -/
def listSwap (l : List ℕ) (i j : ℕ) : List ℕ :=
  (l.set i (l.getD j 0)).set j (l.getD i 0)

/-- The loop of `shuffle`: `j` runs `nhash-1, …, 1`; at each step
`i = uint8(r & nhashmask) % uint8(j+1)`, `h[i]` and `h[j]` are swapped and
`r >>= nhashshift`. -/
def shuffleAux : ℕ → List ℕ → ℕ → List ℕ
  | 0, h, _ => h
  | j + 1, h, r => shuffleAux j (listSwap h ((r &&& nhashmask) % (j + 2)) (j + 1)) (r >>> nhashshift)

/-- `shuffle(h, r)`: Fisher–Yates shuffle of the candidate tuple, driven by
the low `nhash*nhashshift` bits of `r`. -/
def shuffle (h : List ℕ) (r : ℕ) : List ℕ := shuffleAux (nhash - 1) h r

/-- Linear scan of one bucket for key `k` (`Search` inner loop). -/
def bucketFind (k : Key) (b : Bucket) : Option Value :=
  (b.find? fun s => s.1 == k).map (·.2)

def searchLoop (c : Cuckoo) (k : Key) : List ℕ → Value × Bool
  | [] => (0, false)
  | hval :: rest =>
    match bucketFind k (c.buckets.getD hval zeroBucket) with
    | some v => (v, true)
    | none => searchLoop c k rest

/-- `Search(k)`:

```go
if k == 0 { if !c.zeroIsSet { return }; return c.zeroValue, true }
c.dohash(k, &h)
for _, hval := range &h { for i, key := range &b.keys { if k == key { return b.vals[i], true } } }
```
-/
def Search (c : Cuckoo) (k : Key) : Value × Bool :=
  if k = 0 then
    if c.zeroIsSet = false then (0, false) else (c.zeroValue, true)
  else
    searchLoop c k (dohash c k)

/-- Zero the first slot of `b` holding key `k` (`Delete` inner loop;
`break` after the first match). -/
def deleteFromBucket (k : Key) : Bucket → Bucket × Bool
  | [] => ([], false)
  | s :: rest =>
    if k = s.1 then ((0, 0) :: rest, true)
    else
      let (r, found) := deleteFromBucket k rest
      (s :: r, found)

/-- The outer loop of `Delete`: each candidate bucket is scanned; on a
match the slot is zeroed and `nentries` decremented (the `break` leaves
only the inner loop). -/
def deleteLoop (k : Key) : List ℕ → Cuckoo → Cuckoo
  | [], c => c
  | hval :: rest, c =>
    let b := c.buckets.getD hval zeroBucket
    let (b1, found) := deleteFromBucket k b
    let c1 := if found then
        { c with buckets := c.buckets.set hval b1, nentries := c.nentries - 1 }
      else c
    deleteLoop k rest c1

/-- `tryUpdate` inner loop over the slots of one bucket, carrying the
first-free-slot accumulator `(fs, ib, idx)`; returns `some i` when slot `i`
holds key `k`. -/
def tryUpdateSlots (k : Key) (hval : ℕ) : List Slot → ℕ → Bool → ℕ → ℕ → Option ℕ × Bool × ℕ × ℕ
  | [], _, fs, ib, idx => (none, fs, ib, idx)
  | s :: rest, i, fs, ib, idx =>
    if k = s.1 then (some i, fs, ib, idx)
    else if fs = false ∧ s.1 = 0 then tryUpdateSlots k hval rest (i + 1) true hval i
    else tryUpdateSlots k hval rest (i + 1) fs ib idx

/-- Write slot `idx` of bucket `ib` (`addAt` and the update of `tryUpdate`
both store `(k, v)` there). -/
def addAt (c : Cuckoo) (k : Key) (v : Value) (ib idx : ℕ) : Cuckoo :=
  { c with buckets := c.buckets.set ib ((c.buckets.getD ib zeroBucket).set idx (k, v)) }

/-- `tryUpdate` outer loop over the candidate buckets. -/
def tryUpdateLoop (k : Key) (v : Value) : List ℕ → Cuckoo → Bool → ℕ → ℕ → Bool × Bool × ℕ × ℕ × Cuckoo
  | [], c, fs, ib, idx => (false, fs, ib, idx, c)
  | hval :: rest, c, fs, ib, idx =>
    match tryUpdateSlots k hval (c.buckets.getD hval zeroBucket) 0 fs ib idx with
    | (some i, fs1, ib1, idx1) => (true, fs1, ib1, idx1, addAt c k v hval i)
    | (none, fs1, ib1, idx1) => tryUpdateLoop k v rest c fs1 ib1 idx1

/-- `tryUpdate(k, v, h)`: update the value in place if key `k` is present
in a candidate bucket, otherwise report the first observed free slot. -/
def tryUpdate (c : Cuckoo) (k : Key) (v : Value) (h : List ℕ) : Bool × Bool × ℕ × ℕ × Cuckoo :=
  tryUpdateLoop k v h c false 0 0

/-- `tryAdd` loop: skip the `except` bucket when `ignore` is set, otherwise
place `(k, v)` in the first empty slot found. -/
def tryAddLoop (k : Key) (v : Value) (ignore : Bool) (except : ℕ) : List ℕ → Cuckoo → Bool × Cuckoo
  | [], c => (false, c)
  | hval :: rest, c =>
    if ignore = true ∧ except = hval then tryAddLoop k v ignore except rest c
    else
      let b := c.buckets.getD hval zeroBucket
      match b.findIdx? (fun s => s.1 == 0) with
      | some i => (true, { c with buckets := c.buckets.set hval (b.set i (k, v)) })
      | none => tryAddLoop k v ignore except rest c

/-- `tryAdd(k, v, h, ignore, except)`:

```go
if k == 0 { c.zeroIsSet = true; c.zeroValue = v; return }   // added stays false
for _, hval := range h { if ignore && except == hval { continue }
  for i, key := range &b.keys { if key == 0 { place; return true } } }
```
-/
def tryAdd (c : Cuckoo) (k : Key) (v : Value) (h : List ℕ) (ignore : Bool) (except : ℕ) :
    Bool × Cuckoo :=
  if k = 0 then (false, { c with zeroIsSet := true, zeroValue := v })
  else tryAddLoop k v ignore except h c

/-- One iteration of the random walk of `tryGreedyAdd` draws one 63-bit
random word; the Go body is

```go
r := rand.Int63()
c.shuffle(h, r)
r >>= nhash * nhashshift
i := int(r & bmask)
d := int((r >> bshift) & nhashmask)
hval := h[d]
b := &c.buckets[int(hval)]
ekey, eval := b.keys[i], b.vals[i]
b.keys[i], b.vals[i] = k, v
c.dohash(ekey, &ehash)
if c.tryAdd(ekey, eval, &ehash, true, hval) { return true }
k = ekey; v = eval; *h = ehash
```

and each of its intermediate values is a named definition here. -/
def walkR (g : RNG) : ℕ := (RNG.next63 g).1 >>> (nhash * nhashshift)

def walkI (g : RNG) : ℕ := walkR g &&& bmask

def walkD (g : RNG) : ℕ := (walkR g >>> bshift) &&& nhashmask

def walkHval (h : List ℕ) (g : RNG) : ℕ := (shuffle h (RNG.next63 g).1).getD (walkD g) 0

/-- The evicted pair `(ekey, eval)`. -/
def walkSlot (c : Cuckoo) (h : List ℕ) (g : RNG) : Slot :=
  (c.buckets.getD (walkHval h g) zeroBucket).getD (walkI g) (0, 0)

/-- The state after `b.keys[i], b.vals[i] = k, v`. -/
def walkWrite (c : Cuckoo) (k : Key) (v : Value) (h : List ℕ) (g : RNG) : Cuckoo :=
  { c with buckets :=
      c.buckets.set (walkHval h g) ((c.buckets.getD (walkHval h g) zeroBucket).set (walkI g) (k, v)) }

/-- One full step: the re-add attempt of the evicted pair, and on failure
the continuation `(k, v, h) := (ekey, eval, ehash)`. -/
def greedyStep (c : Cuckoo) (k : Key) (v : Value) (h : List ℕ) (g : RNG) :
    Bool × Cuckoo × Key × Value × List ℕ × RNG :=
  match tryAdd (walkWrite c k v h g) (walkSlot c h g).1 (walkSlot c h g).2
      (dohash (walkWrite c k v h g) (walkSlot c h g).1) true (walkHval h g) with
  | (true, c2) => (true, c2, k, v, h, (RNG.next63 g).2)
  | (false, c2) => (false, c2, (walkSlot c h g).1, (walkSlot c h g).2,
      dohash (walkWrite c k v h g) (walkSlot c h g).1, (RNG.next63 g).2)

/-- The walk loop; `fuel` counts the remaining steps of the budget
`max = (1 + logsize) * randomWalkCoefficient`.  On exhaustion the pair in
hand is parked in `ekey`/`eval`/`eitem`. -/
def greedyLoop (c : Cuckoo) (k : Key) (v : Value) (h : List ℕ) (g : RNG) :
    ℕ → Bool × Cuckoo × RNG
  | 0 => (false, { c with ekey := k, eval := v, eitem := true }, g)
  | fuel + 1 =>
    match greedyStep c k v h g with
    | (true, c2, _, _, _, g1) => (true, c2, g1)
    | (false, c2, k2, v2, h2, g1) => greedyLoop c2 k2 v2 h2 g1 fuel

/-- `tryGreedyAdd(k, v, h)`: bounded random-walk eviction. -/
def tryGreedyAdd (c : Cuckoo) (k : Key) (v : Value) (h : List ℕ) (g : RNG) :
    Bool × Cuckoo × RNG :=
  greedyLoop c k v h g ((1 + c.logsize) * randomWalkCoefficient)

/-- `tryInsert(k, v)`: update, else free slot, else eviction walk. -/
def tryInsert (c : Cuckoo) (k : Key) (v : Value) (g : RNG) : Bool × Cuckoo × RNG :=
  let h := dohash c k
  match tryUpdate c k v h with
  | (true, _, _, _, c1) => (true, c1, g)
  | (false, true, ib, idx, c1) =>
    (true, { addAt c1 k v ib idx with nentries := c1.nentries + 1 }, g)
  | (false, false, _, _, c1) =>
    match tryGreedyAdd c1 k v h g with
    | (true, c2, g1) => (true, { c2 with nentries := c2.nentries + 1 }, g1)
    | (false, c2, g1) => (false, c2, g1)

/-- `LoadFactor() = nentries / (len(buckets) << bshift)` (exact rational,
written with `mkRat` so that it computes; `LoadFactor_eq` gives the
division form.  See `rehashThreshold` for the float comparison). -/
def LoadFactor (c : Cuckoo) : ℚ := mkRat c.nentries (c.buckets.length * blen)

theorem rehashThreshold_eq : rehashThreshold = 9 / 10 := by
  rw [rehashThreshold, Rat.mkRat_eq_div]
  norm_num

theorem LoadFactor_eq (c : Cuckoo) :
    LoadFactor c = (c.nentries : ℚ) / ((c.buckets.length * blen : ℕ) : ℚ) := by
  rw [LoadFactor, Rat.mkRat_eq_div]

/-- Inner slot loop of the rebuild of `tryGrow`: every non-empty slot of
the old bucket is re-added to the candidate table (fast path `tryAdd`,
then the eviction walk); the first walk failure aborts. -/
def growBucketSlots : List Slot → Cuckoo → RNG → Bool × Cuckoo × RNG
  | [], c, g => (true, c, g)
  | s :: rest, c, g =>
    if s.1 = 0 then growBucketSlots rest c g
    else
      let h := dohash c s.1
      match tryAdd c s.1 s.2 h false 0 with
      | (true, c1) => growBucketSlots rest c1 g
      | (false, c1) =>
        match tryGreedyAdd c1 s.1 s.2 h g with
        | (true, c2, g1) => growBucketSlots rest c2 g1
        | (false, c2, g1) => (false, c2, g1)

/-- Outer bucket loop of the rebuild of `tryGrow`. -/
def growBuckets : List Bucket → Cuckoo → RNG → Bool × Cuckoo × RNG
  | [], c, g => (true, c, g)
  | b :: rest, c, g =>
    match growBucketSlots b c g with
    | (true, c1, g1) => growBuckets rest c1 g1
    | (false, c1, g1) => (false, c1, g1)

/-- The rebuild phase of `tryGrow`: re-add every occupied slot of the old
table into the fresh candidate table, then reinsert the suspended entry
last; any failure abandons the candidate and returns the old table. -/
def growRebuild (cOld : Cuckoo) (cnew1 : Cuckoo) (g1 : RNG) : Option (Bool × Cuckoo × RNG) :=
  match growBuckets cOld.buckets cnew1 g1 with
  | (false, _, g2) => some (false, cOld, g2)
  | (true, cnew2, g2) =>
    if cnew2.eitem then
      match tryInsert cnew2 cnew2.ekey cnew2.eval g2 with
      | (false, _, g3) => some (false, cOld, g3)
      | (true, cnew3, g3) => some (true, { cnew3 with eitem := false }, g3)
    else some (true, cnew2, g2)

/-- `tryGrow(δ)`:

```go
cnew := copy of c; cnew.reseed()
if δ == 0 { cnew.nrehash++ }
if δ > 0 { cnew.ngrow++ }
if δ < 0 { if cnew.logsize <= 8 { return }; cnew.nshrink++ }
cnew.logsize += δ
if cnew.logsize > hashBits { panic(...) }
cnew.buckets = alloc(1 << uint(cnew.logsize))
… rehash everything; reinsert the suspended item last …
if ok { *c = *cnew }
```

`none` models the panic; on `some (false, c, g)` the original table is
returned unchanged (only the random source advanced). -/
def tryGrow (c : Cuckoo) (δ : ℤ) (g : RNG) : Option (Bool × Cuckoo × RNG) :=
  let (cnew0, g1) := reseed c g
  let cnew0 := if δ = 0 then { cnew0 with nrehash := cnew0.nrehash + 1 } else cnew0
  let cnew0 := if 0 < δ then { cnew0 with ngrow := cnew0.ngrow + 1 } else cnew0
  if δ < 0 ∧ c.logsize ≤ 8 then some (false, c, g1)
  else
    let cnew0 := if δ < 0 then { cnew0 with nshrink := cnew0.nshrink + 1 } else cnew0
    let L : ℤ := (c.logsize : ℤ) + δ
    if L > hashBits then none
    else
      growRebuild c { cnew0 with logsize := L.toNat, buckets := alloc (1 <<< L.toNat) } g1

/-- `Delete(k)`:

```go
if k == 0 { c.zeroIsSet = false; c.zeroValue = zero; return }
… zero the matching slot in each candidate bucket, decrementing nentries …
if 1<<uint(c.logsize+bshift-shrinkFactor) > c.nentries {
  for i := shrinkFactor; i > 0; i-- { if c.tryGrow(-i) { break } } }
```
-/
def shrinkLoop : ℕ → Cuckoo → RNG → Option (Cuckoo × RNG)
  | 0, c, g => some (c, g)
  | i + 1, c, g =>
    match tryGrow c (-(i + 1 : ℤ)) g with
    | none => none
    | some (true, c1, g1) => some (c1, g1)
    | some (false, c1, g1) => shrinkLoop i c1 g1

def Delete (c : Cuckoo) (k : Key) (g : RNG) : Option (Cuckoo × RNG) :=
  if k = 0 then some ({ c with zeroIsSet := false, zeroValue := 0 }, g)
  else
    let c1 := deleteLoop k (dohash c k) c
    if ((1 <<< (c1.logsize + bshift - shrinkFactor) : ℕ) : ℤ) > c1.nentries then
      shrinkLoop shrinkFactor c1 g
    else some (c1, g)

/-- `tryGrow` with `δ ≥ 0` never takes the early shrink return, so a
`some` result implies the panic guard passed. -/
theorem tryGrow_nonneg_le (c : Cuckoo) (δ : ℤ) (g : RNG) (hδ : 0 ≤ δ)
    (h : (tryGrow c δ g).isSome) : (c.logsize : ℤ) + δ ≤ hashBits := by
  unfold tryGrow at h
  by_cases hone : δ < 0 ∧ c.logsize ≤ 8
  · exact absurd hone.1 (not_lt.mpr hδ)
  · simp only [if_neg hone] at h
    by_cases hL : (c.logsize : ℤ) + δ > hashBits
    · simp [hL] at h
    · exact not_lt.mp hL

/-- The loop body of the resize controller, with explicit fuel (made
structural so that it computes). -/
def growUntilAux : ℕ → Cuckoo → RNG → ℕ → Option (Cuckoo × RNG)
  | 0, _, _, _ => none
  | fuel + 1, c, g, i =>
    match tryGrow c (i : ℤ) g with
    | none => none
    | some (true, c1, g1) => some (c1, g1)
    | some (false, _, g1) => growUntilAux fuel c g1 (i + 1)

/-- The resize controller of `Insert`: try `δ = i`, on failure `δ = i + 1`,
…; the panic of `tryGrow` (`none`) stops everything.  The Go loop is
unbounded, but `tryGrow` with `logsize + i > hashBits` panics, so the
loop runs at most `hashBits + 1 - i` times; that fuel makes the recursion
structural without changing the semantics (`growUntil_eq` recovers the
unbounded unfolding: at fuel 0 the attempted `tryGrow` itself panics). -/
def growUntil (c : Cuckoo) (g : RNG) (i : ℕ) : Option (Cuckoo × RNG) :=
  growUntilAux (hashBits + 1 - i) c g i

/-- `Insert(k, v)`:

```go
if k == 0 { c.zeroIsSet = true; c.zeroValue = v; return }
for { if c.tryInsert(k, v) { return }
      i0 := 1; if c.LoadFactor() < rehashThreshold { i0 = 0 }
      for i := i0; ; i++ { if c.tryGrow(i) { break } } }
```

The outer loop takes fuel; `none` is fuel exhaustion or a `tryGrow` panic. -/
def Insert : ℕ → Cuckoo → Key → Value → RNG → Option (Cuckoo × RNG)
  | _, c, 0, v, g => some ({ c with zeroIsSet := true, zeroValue := v }, g)
  | 0, _, _, _, _ => none
  | fuel + 1, c, k, v, g =>
    match tryInsert c k v g with
    | (true, c1, g1) => some (c1, g1)
    | (false, c1, g1) =>
      let i0 : ℕ := if LoadFactor c1 < rehashThreshold then 0 else 1
      match growUntil c1 g1 i0 with
      | none => none
      | some (c2, g2) => Insert fuel c2 k v g2

/-! ## Views and invariants

The occupied slots of a bucket are those with a non-zero key (the
sentinel invariant of the design). -/

/-- The occupied slots of one bucket. -/
def bucketEntries (b : Bucket) : List Slot := b.filter fun s => decide (s.1 ≠ 0)

/-- All occupied slots of the table, in bucket order.  The entry with
key 0, if any, lives out of band in `zeroValue`/`zeroIsSet`. -/
def allPairs (c : Cuckoo) : List Slot := (c.buckets.map bucketEntries).flatten

/-- The non-zero keys currently stored in `buckets`. -/
def keysOf (c : Cuckoo) : List Key := (allPairs c).map Prod.fst

/-- A bucket with no empty slot. -/
def bucketFull (b : Bucket) : Prop := ∀ s ∈ b, s.1 ≠ 0

/-- Shape: `2^logsize` buckets of `blen` slots each, `nhash` seeds. -/
def BucketsWF (c : Cuckoo) : Prop :=
  c.buckets.length = 1 <<< c.logsize ∧ (∀ b ∈ c.buckets, b.length = blen) ∧
    c.seed.length = nhash

/-- Uniqueness: a non-zero key is stored in at most one slot. -/
def Uniq (c : Cuckoo) : Prop := (keysOf c).Nodup

/-- Placement: every stored entry lives in one of the candidate buckets
of its key. -/
def Placement (c : Cuckoo) : Prop :=
  ∀ bi ∈ List.range c.buckets.length, ∀ s ∈ c.buckets.getD bi [], s.1 ≠ 0 →
    bi ∈ dohash c s.1

/-- Count accuracy of the code: `nentries` counts the occupied slots
(the out-of-band zero-key entry is not counted by the implementation). -/
def CountOK (c : Cuckoo) : Prop := c.nentries = ((allPairs c).length : ℤ)

/-- The structural part of the representation invariant. -/
def StructWF (c : Cuckoo) : Prop := BucketsWF c ∧ Uniq c ∧ Placement c

/-- Well-formedness of the suspended entry: if one is in hand it has a
non-zero key that is not also stored in a bucket. -/
def SuspWF (c : Cuckoo) : Prop := c.eitem = true → c.ekey ≠ 0 ∧ c.ekey ∉ keysOf c

/-- The steady-state invariant, holding between public operations. -/
def Inv (c : Cuckoo) : Prop := StructWF c ∧ CountOK c ∧ c.eitem = false

/-- The key/value pairs observationally stored in the table (including
the out-of-band zero cell). -/
def MapsTo (c : Cuckoo) (k : Key) (v : Value) : Prop :=
  if k = 0 then c.zeroIsSet = true ∧ v = c.zeroValue else (k, v) ∈ allPairs c

/-! ## List helpers -/

theorem getD_set_self {α : Type _} (l : List α) (i : ℕ) (h : i < l.length) (a d : α) :
    (l.set i a).getD i d = a := by
  rw [List.getD_eq_getElem?_getD, List.getElem?_set]
  simp [h]

theorem getD_set_ne {α : Type _} (l : List α) {i j : ℕ} (hne : i ≠ j) (a d : α) :
    (l.set i a).getD j d = l.getD j d := by
  rw [List.getD_eq_getElem?_getD, List.getElem?_set, if_neg hne, ← List.getD_eq_getElem?_getD]

theorem set_decomp {α : Type _} (l : List α) (i : ℕ) (h : i < l.length) (a d : α) :
    l = l.take i ++ l.getD i d :: l.drop (i + 1) ∧
      l.set i a = l.take i ++ a :: l.drop (i + 1) := by
  induction l generalizing i with
  | nil => simp at h
  | cons x xs ih =>
    cases i with
    | zero => simp [List.getD]
    | succ n =>
      have hn : n < xs.length := by simpa using h
      obtain ⟨h1, h2⟩ := ih n hn
      constructor
      · simpa [List.getD_cons_succ] using congrArg (x :: ·) h1
      · simpa using congrArg (x :: ·) h2

theorem mem_getD_of_lt {α : Type _} (l : List α) (i : ℕ) (h : i < l.length) (d : α) :
    l.getD i d ∈ l := by
  rw [List.getD_eq_getElem l d h]
  exact List.getElem_mem h

/-- Replace one bucket of the table (the write `c.buckets[hval] = b`). -/
def setBucket (c : Cuckoo) (hval : ℕ) (b : Bucket) : Cuckoo :=
  { c with buckets := c.buckets.set hval b }

/-- Decomposition of `allPairs` at one bucket: the occupied slots split
into the occupied slots before, inside and after the bucket, and setting
that bucket replaces exactly the middle segment. -/
theorem allPairs_decomp (c : Cuckoo) (hval : ℕ) (h : hval < c.buckets.length) :
    ∃ P Q, allPairs c = P ++ bucketEntries (c.buckets.getD hval zeroBucket) ++ Q ∧
      ∀ b1, allPairs (setBucket c hval b1) = P ++ bucketEntries b1 ++ Q := by
  refine ⟨((c.buckets.take hval).map bucketEntries).flatten,
    ((c.buckets.drop (hval + 1)).map bucketEntries).flatten, ?_, ?_⟩
  · conv_lhs => rw [allPairs, (set_decomp c.buckets hval h zeroBucket zeroBucket).1]
    simp [List.map_append, List.flatten_append]
  · intro b1
    show ((List.map bucketEntries ((setBucket c hval b1).buckets)).flatten) = _
    show ((List.map bucketEntries (c.buckets.set hval b1)).flatten) = _
    rw [(set_decomp c.buckets hval h b1 zeroBucket).2]
    simp [List.map_append, List.flatten_append]

/-- Setting a slot inside a bucket: decomposition of `bucketEntries`. -/
theorem bucketEntries_set (b : Bucket) (i : ℕ) (h : i < b.length) (s : Slot) :
    ∃ P Q, bucketEntries b = P ++ bucketEntries [b.getD i (0, 0)] ++ Q ∧
      bucketEntries (b.set i s) = P ++ bucketEntries [s] ++ Q := by
  refine ⟨bucketEntries (b.take i), bucketEntries (b.drop (i + 1)), ?_, ?_⟩
  · conv_lhs => rw [bucketEntries, (set_decomp b i h (0, 0) (0, 0)).1]
    simp only [List.filter_append, bucketEntries]
    simp only [List.filter]
    split <;> simp
  · rw [bucketEntries, (set_decomp b i h s (0, 0)).2]
    simp only [List.filter_append, bucketEntries]
    simp only [List.filter]
    split <;> simp

theorem mem_bucketEntries {b : Bucket} {s : Slot} :
    s ∈ bucketEntries b ↔ s ∈ b ∧ s.1 ≠ 0 := by
  simp [bucketEntries, List.mem_filter]

theorem bucketEntries_eq_self_of_full {b : Bucket} (h : bucketFull b) :
    bucketEntries b = b := by
  rw [bucketEntries, List.filter_eq_self]
  intro s hs
  simpa using h s hs

theorem mem_allPairs {c : Cuckoo} {s : Slot} :
    s ∈ allPairs c ↔ ∃ b ∈ c.buckets, s ∈ b ∧ s.1 ≠ 0 := by
  simp only [allPairs, List.mem_flatten, List.mem_map]
  constructor
  · rintro ⟨l, ⟨b, hb, rfl⟩, hs⟩
    exact ⟨b, hb, mem_bucketEntries.mp hs⟩
  · rintro ⟨b, hb, hs, hne⟩
    exact ⟨bucketEntries b, ⟨b, hb, rfl⟩, mem_bucketEntries.mpr ⟨hs, hne⟩⟩

/-! ## Basic facts about `dohash` -/

theorem dohash_length {c : Cuckoo} : (dohash c k).length = c.seed.length := by
  simp [dohash]

theorem dohash_lt {c : Cuckoo} {x : ℕ} (hx : x ∈ dohash c k) : x < 1 <<< c.logsize := by
  simp only [dohash, List.mem_map] at hx
  obtain ⟨s, _, rfl⟩ := hx
  have h1 : defaultHash k s &&& (1 <<< c.logsize - 1) ≤ 1 <<< c.logsize - 1 :=
    Nat.and_le_right
  have h2 : 0 < 1 <<< c.logsize := by
    rw [Nat.one_shiftLeft]
    exact Nat.two_pow_pos _
  omega

/-- `dohash` only reads the seeds and the log size. -/
theorem dohash_congr {c c1 : Cuckoo} (hseed : c1.seed = c.seed)
    (hls : c1.logsize = c.logsize) : dohash c1 = dohash c := by
  funext k
  rw [dohash, dohash, hseed, hls]

theorem bucketEntries_singleton (s : Slot) :
    bucketEntries [s] = if s.1 = 0 then [] else [s] := by
  by_cases h : s.1 = 0 <;> simp [bucketEntries, List.filter, h]

/-- Combined decomposition: replacing slot `i` of bucket `hval` replaces
one (possibly empty) segment of `allPairs`. -/
theorem allPairs_set_slot (c : Cuckoo) {hval i : ℕ} (hlt : hval < c.buckets.length)
    (hi : i < (c.buckets.getD hval zeroBucket).length) (s : Slot) :
    ∃ P Q, allPairs c = P ++ bucketEntries [(c.buckets.getD hval zeroBucket).getD i (0, 0)] ++ Q ∧
      allPairs (setBucket c hval ((c.buckets.getD hval zeroBucket).set i s)) =
        P ++ bucketEntries [s] ++ Q := by
  obtain ⟨P0, Q0, hc, hset⟩ := allPairs_decomp c hval hlt
  obtain ⟨P1, Q1, hb, hb1⟩ := bucketEntries_set (c.buckets.getD hval zeroBucket) i hi s
  refine ⟨P0 ++ P1, Q1 ++ Q0, ?_, ?_⟩
  · rw [hc, hb]; simp
  · rw [hset, hb1]; simp

theorem mem_keysOf {c : Cuckoo} {k : Key} : k ∈ keysOf c ↔ ∃ v, (k, v) ∈ allPairs c := by
  simp only [keysOf, List.mem_map]
  constructor
  · rintro ⟨⟨k1, v⟩, hm, rfl⟩
    exact ⟨v, hm⟩
  · rintro ⟨v, hv⟩
    exact ⟨(k, v), hv, rfl⟩

/-- With pairwise distinct keys, a key determines its value. -/
theorem keys_nodup_val_eq {l : List Slot} (h : (l.map Prod.fst).Nodup) {k : Key} {v w : Value}
    (hv : (k, v) ∈ l) (hw : (k, w) ∈ l) : v = w := by
  induction l with
  | nil => simp at hv
  | cons x xs ih =>
    simp only [List.map_cons, List.nodup_cons] at h
    rcases List.mem_cons.mp hv with rfl | hv1
    · rcases List.mem_cons.mp hw with h1 | hw1
      · exact (congrArg Prod.snd h1).symm
      · exact absurd (List.mem_map_of_mem Prod.fst hw1) h.1
    · rcases List.mem_cons.mp hw with rfl | hw1
      · exact absurd (List.mem_map_of_mem Prod.fst hv1) h.1
      · exact ih h.2 hv1 hw1

theorem getD_default_irrel {α : Type _} (l : List α) {i : ℕ} (h : i < l.length) (d d' : α) :
    l.getD i d = l.getD i d' := by
  rw [List.getD_eq_getElem l d h, List.getD_eq_getElem l d' h]

theorem mem_allPairs_of_slot {c : Cuckoo} {bi : ℕ} (hbi : bi < c.buckets.length) {s : Slot}
    (hs : s ∈ c.buckets.getD bi zeroBucket) (hk : s.1 ≠ 0) : s ∈ allPairs c :=
  mem_allPairs.mpr ⟨_, mem_getD_of_lt c.buckets bi hbi zeroBucket, hs, hk⟩

/-- Placement, read off at a bucket reached through `getD`. -/
theorem Placement.at_getD {c : Cuckoo} (hp : Placement c) {bi : ℕ} (hbi : bi < c.buckets.length)
    {s : Slot} (hs : s ∈ c.buckets.getD bi zeroBucket) (hk : s.1 ≠ 0) : bi ∈ dohash c s.1 := by
  have := hp bi (List.mem_range.mpr hbi) s
  rw [getD_default_irrel c.buckets hbi zeroBucket []] at hs
  exact this hs hk

/-! ## `Search` specification -/

theorem bucketFind_eq_none_iff {k : Key} {b : Bucket} :
    bucketFind k b = none ↔ ∀ s ∈ b, s.1 ≠ k := by
  simp [bucketFind, List.find?_eq_none]

theorem bucketFind_some_mem {k : Key} {b : Bucket} {v : Value}
    (h : bucketFind k b = some v) : (k, v) ∈ b := by
  simp only [bucketFind, Option.map_eq_some'] at h
  obtain ⟨s, hfind, rfl⟩ := h
  have h1 : s.1 = k := by simpa using List.find?_some hfind
  have h2 := List.mem_of_find?_eq_some hfind
  rwa [show (k, s.2) = s by rw [← h1]]

theorem searchLoop_of_not_mem {c : Cuckoo} {k : Key} {h : List ℕ}
    (hk : ∀ hv ∈ h, ∀ s ∈ c.buckets.getD hv zeroBucket, s.1 ≠ k) :
    searchLoop c k h = (0, false) := by
  induction h with
  | nil => rfl
  | cons hv rest ih =>
    rw [searchLoop]
    rw [bucketFind_eq_none_iff.mpr (hk hv (by simp))]
    exact ih fun x hx => hk x (by simp [hx])

/-- A key that is not stored (and is not 0) is not found. -/
theorem Search_not_found {c : Cuckoo} {k : Key} (hwf : BucketsWF c) (hk0 : k ≠ 0)
    (hk : k ∉ keysOf c) : Search c k = (0, false) := by
  rw [Search, if_neg hk0]
  refine searchLoop_of_not_mem fun hv hhv s hs hsk => ?_
  have hlt : hv < c.buckets.length := by
    rw [hwf.1]; exact dohash_lt hhv
  have hs0 : s.1 ≠ 0 := fun h0 => hk0 (hsk.symm.trans h0)
  have hmem : s ∈ allPairs c := mem_allPairs_of_slot hlt hs hs0
  have hseq : (k, s.2) = s := by
    rw [← hsk]
  exact hk (mem_keysOf.mpr ⟨s.2, hseq ▸ hmem⟩)

/-- Helper for `Search_found`: the scan finds the value of a stored key
once the list of probed buckets contains its bucket. -/
theorem searchLoop_found {c : Cuckoo} {k : Key} {v : Value} (hu : Uniq c) (hk0 : k ≠ 0)
    (hm : (k, v) ∈ allPairs c) {bi : ℕ} (hbg : (k, v) ∈ c.buckets.getD bi zeroBucket) :
    ∀ h : List ℕ, bi ∈ h → (∀ hv ∈ h, hv < c.buckets.length) → searchLoop c k h = (v, true) := by
  intro h
  induction h with
  | nil => simp
  | cons hv rest ih =>
    intro hbimem hvalid
    rw [searchLoop]
    cases hfind : bucketFind k (c.buckets.getD hv zeroBucket) with
    | some w =>
      have hwmem : (k, w) ∈ allPairs c :=
        mem_allPairs_of_slot (hvalid hv (by simp)) (bucketFind_some_mem hfind) hk0
      rw [keys_nodup_val_eq hu hwmem hm]
    | none =>
      have hne : bi ≠ hv := by
        rintro rfl
        exact bucketFind_eq_none_iff.mp hfind (k, v) hbg rfl
      rcases List.mem_cons.mp hbimem with h1 | h1
      · exact absurd h1 hne
      · exact ih h1 fun x hx => hvalid x (by simp [hx])

/-- A stored entry is found with its value. -/
theorem Search_found {c : Cuckoo} {k : Key} {v : Value} (hwf : StructWF c) (hk0 : k ≠ 0)
    (hm : (k, v) ∈ allPairs c) : Search c k = (v, true) := by
  obtain ⟨hb, hu, hp⟩ := hwf
  obtain ⟨b, hbm, hsb, -⟩ := mem_allPairs.mp hm
  obtain ⟨bi, hbi, rfl⟩ := List.getElem_of_mem hbm
  have hbg : (k, v) ∈ c.buckets.getD bi zeroBucket := by
    rw [List.getD_eq_getElem _ _ hbi]
    exact hsb
  have hbih : bi ∈ dohash c k := @Placement.at_getD c hp bi hbi (k, v) hbg hk0
  rw [Search, if_neg hk0]
  exact searchLoop_found hu hk0 hm hbg (dohash c k) hbih fun hv hhv => by
    rw [hb.1]
    exact dohash_lt hhv

/-! ## `Delete` loop specification -/

/-- The fields untouched by the bucket-level loops. -/
def SameCore (c1 c : Cuckoo) : Prop :=
  c1.logsize = c.logsize ∧ c1.seed = c.seed ∧ c1.zeroValue = c.zeroValue ∧
    c1.zeroIsSet = c.zeroIsSet ∧ c1.ngrow = c.ngrow ∧ c1.nshrink = c.nshrink ∧
    c1.nrehash = c.nrehash

theorem SameCore.refl (c : Cuckoo) : SameCore c c := by
  exact ⟨rfl, rfl, rfl, rfl, rfl, rfl, rfl⟩

theorem SameCore.trans {c2 c1 c : Cuckoo} (h2 : SameCore c2 c1) (h1 : SameCore c1 c) :
    SameCore c2 c := by
  obtain ⟨a1, a2, a3, a4, a5, a6, a7⟩ := h2
  obtain ⟨b1, b2, b3, b4, b5, b6, b7⟩ := h1
  exact ⟨a1.trans b1, a2.trans b2, a3.trans b3, a4.trans b4, a5.trans b5, a6.trans b6,
    a7.trans b7⟩

theorem SameCore.dohash_eq {c1 c : Cuckoo} (h : SameCore c1 c) : dohash c1 = dohash c :=
  dohash_congr h.2.1 h.1

theorem allPairs_congr {c1 c : Cuckoo} (h : c1.buckets = c.buckets) :
    allPairs c1 = allPairs c := by
  rw [allPairs, allPairs, h]

theorem keysOf_congr {c1 c : Cuckoo} (h : c1.buckets = c.buckets) : keysOf c1 = keysOf c := by
  rw [keysOf, keysOf, allPairs_congr h]

theorem deleteFromBucket_not_found {k : Key} {b : Bucket} (h : ∀ s ∈ b, s.1 ≠ k) :
    deleteFromBucket k b = (b, false) := by
  induction b with
  | nil => rfl
  | cons s rest ih =>
    rw [deleteFromBucket, if_neg fun he => h s (by simp) he.symm,
      ih fun x hx => h x (by simp [hx])]

theorem deleteFromBucket_found {k : Key} {b : Bucket} {s0 : Slot} (hs0 : s0 ∈ b)
    (hk : s0.1 = k) :
    ∃ P v Q, b = P ++ (k, v) :: Q ∧ (∀ s ∈ P, s.1 ≠ k) ∧
      deleteFromBucket k b = (P ++ (0, 0) :: Q, true) := by
  induction b with
  | nil => simp at hs0
  | cons s rest ih =>
    by_cases hsk : k = s.1
    · refine ⟨[], s.2, rest, by simp [hsk], by simp, ?_⟩
      rw [deleteFromBucket, if_pos hsk]
      simp
    · have hs0r : s0 ∈ rest := by
        rcases List.mem_cons.mp hs0 with rfl | h1
        · exact absurd hk.symm hsk
        · exact h1
      obtain ⟨P, v, Q, hb, hP, hres⟩ := ih hs0r
      refine ⟨s :: P, v, Q, by rw [hb]; rfl, ?_, ?_⟩
      · intro x hx
        rcases List.mem_cons.mp hx with rfl | h1
        · exact fun he => hsk he.symm
        · exact hP x h1
      · rw [deleteFromBucket, if_neg hsk, hres]
        rfl

/-- No matching key anywhere on the probe path: `deleteLoop` is the identity. -/
theorem deleteLoop_not_found {c : Cuckoo} {k : Key} {h : List ℕ}
    (hvalid : ∀ hv ∈ h, hv < c.buckets.length) (hk0 : k ≠ 0) (hk : k ∉ keysOf c) :
    deleteLoop k h c = c := by
  induction h with
  | nil => rfl
  | cons hv rest ih =>
    rw [deleteLoop]
    have hnone : ∀ s ∈ c.buckets.getD hv zeroBucket, s.1 ≠ k := by
      intro s hs he
      have : s ∈ allPairs c :=
        mem_allPairs_of_slot (hvalid hv (by simp)) hs (by rw [he]; exact hk0)
      exact hk (mem_keysOf.mpr ⟨s.2, by rwa [show (k, s.2) = s by rw [← he]]⟩)
    rw [deleteFromBucket_not_found hnone]
    exact ih fun x hx => hvalid x (by simp [hx])

theorem bucketEntries_cons (s : Slot) (l : List Slot) :
    bucketEntries (s :: l) = if s.1 = 0 then bucketEntries l else s :: bucketEntries l := by
  by_cases h : s.1 = 0 <;> simp [bucketEntries, List.filter, h]

theorem bucketEntries_append (l1 l2 : List Slot) :
    bucketEntries (l1 ++ l2) = bucketEntries l1 ++ bucketEntries l2 :=
  List.filter_append l1 l2

/-- Deleting a stored key through the probe path removes exactly its slot
and decrements `nentries`, preserving the structural invariants. -/
theorem deleteLoop_found {c : Cuckoo} {k : Key} {v : Value}
    (hb : BucketsWF c) (hu : Uniq c) (hp : Placement c) (hk0 : k ≠ 0)
    (hm : (k, v) ∈ allPairs c) :
    ∀ h : List ℕ, (∀ hv ∈ h, hv < c.buckets.length) →
      (∃ hv ∈ h, ∃ s ∈ c.buckets.getD hv zeroBucket, s.1 = k) →
      ∃ c1, deleteLoop k h c = c1 ∧
        (∃ P Q, allPairs c = P ++ (k, v) :: Q ∧ allPairs c1 = P ++ Q) ∧
        c1.nentries = c.nentries - 1 ∧ SameCore c1 c ∧
        c1.eitem = c.eitem ∧ c1.ekey = c.ekey ∧ c1.eval = c.eval ∧
        BucketsWF c1 ∧ Uniq c1 ∧ Placement c1 := by
  intro h
  induction h with
  | nil => rintro - ⟨hv, hmem, -⟩; simp at hmem
  | cons hv rest ih =>
    intro hvalid hex
    have hvlt : hv < c.buckets.length := hvalid hv (by simp)
    by_cases hin : ∃ s ∈ c.buckets.getD hv zeroBucket, s.1 = k
    · obtain ⟨s0, hs0, hs0k⟩ := hin
      obtain ⟨P1, v1, Q1, hbdec, hPnok, hdel⟩ := deleteFromBucket_found hs0 hs0k
      have hv1mem : (k, v1) ∈ c.buckets.getD hv zeroBucket := by
        rw [hbdec]
        simp
      have hv1 : v1 = v :=
        keys_nodup_val_eq hu (mem_allPairs_of_slot hvlt hv1mem hk0) hm
      rw [hv1] at hbdec
      set b1 : Bucket := P1 ++ (0, 0) :: Q1 with hb1
      set c1 : Cuckoo :=
        { c with buckets := c.buckets.set hv b1, nentries := c.nentries - 1 } with hc1
      have hstep : deleteLoop k (hv :: rest) c = deleteLoop k rest c1 := by
        rw [deleteLoop, hdel]
        rfl
      obtain ⟨P0, Q0, hap, hapset⟩ := allPairs_decomp c hv hvlt
      have hap1 : allPairs c1 = P0 ++ (bucketEntries P1 ++ bucketEntries Q1) ++ Q0 := by
        have : allPairs c1 = allPairs (setBucket c hv b1) :=
          allPairs_congr (by rw [hc1, setBucket])
        rw [this, hapset b1, hb1, bucketEntries_append, bucketEntries_cons]
        simp
      have hapc : allPairs c =
          (P0 ++ bucketEntries P1) ++ (k, v) :: (bucketEntries Q1 ++ Q0) := by
        rw [hap, hbdec, bucketEntries_append, bucketEntries_cons]
        rw [if_neg hk0]
        simp
      have hkeys : keysOf c =
          (P0 ++ bucketEntries P1).map Prod.fst ++ k :: (bucketEntries Q1 ++ Q0).map Prod.fst := by
        rw [keysOf, hapc]
        simp
      have hkeys1 : keysOf c1 =
          (P0 ++ bucketEntries P1).map Prod.fst ++ (bucketEntries Q1 ++ Q0).map Prod.fst := by
        rw [keysOf, hap1]
        simp
      have hunodup := hu
      rw [Uniq, hkeys] at hunodup
      have hnodup1 : ((P0 ++ bucketEntries P1).map Prod.fst ++
          (bucketEntries Q1 ++ Q0).map Prod.fst).Nodup ∧
            k ∉ (P0 ++ bucketEntries P1).map Prod.fst ++
              (bucketEntries Q1 ++ Q0).map Prod.fst := by
        have := List.nodup_middle.mp hunodup
        rw [List.nodup_cons] at this
        exact ⟨this.2, this.1⟩
      have hknot1 : k ∉ keysOf c1 := by
        rw [hkeys1]
        exact hnodup1.2
      have hlen1 : c1.buckets.length = c.buckets.length := by
        rw [hc1]
        exact List.length_set c.buckets hv b1
      have hrest : deleteLoop k rest c1 = c1 := by
        refine deleteLoop_not_found (fun x hx => ?_) hk0 hknot1
        rw [hlen1]
        exact hvalid x (by simp [hx])
      have hblen : b1.length = (c.buckets.getD hv zeroBucket).length := by
        rw [hb1, hbdec]
        simp
      have hmemb1 : ∀ s ∈ b1, s = (0, 0) ∨ s ∈ c.buckets.getD hv zeroBucket := by
        intro s hs
        rw [hb1] at hs
        rcases List.mem_append.mp hs with h1 | h1
        · exact Or.inr (by rw [hbdec]; exact List.mem_append.mpr (Or.inl h1))
        · rcases List.mem_cons.mp h1 with rfl | h2
          · exact Or.inl rfl
          · exact Or.inr (by rw [hbdec]; simp [h2])
      refine ⟨c1, hstep.trans hrest, ⟨_, _, hapc, hap1.trans (by simp)⟩, rfl,
        ⟨rfl, rfl, rfl, rfl, rfl, rfl, rfl⟩, rfl, rfl, rfl, ?_, ?_, ?_⟩
      · refine ⟨by rw [hlen1, hb.1], fun bb hbb => ?_, hb.2.2⟩
        rcases List.mem_or_eq_of_mem_set hbb with h1 | rfl
        · exact hb.2.1 bb h1
        · rw [hblen]
          exact hb.2.1 _ (mem_getD_of_lt c.buckets hv hvlt zeroBucket)
      · rw [Uniq, hkeys1]
        exact hnodup1.1
      · intro bi hbi s hs hsne
        rw [List.mem_range, hlen1] at hbi
        have hdh : dohash c1 = dohash c := dohash_congr rfl rfl
        rw [hdh]
        by_cases hbihv : hv = bi
        · subst hbihv
          have : c1.buckets.getD hv [] = b1 := by
            rw [hc1]
            exact getD_set_self c.buckets hv hvlt b1 []
          rw [this] at hs
          rcases hmemb1 s hs with rfl | h1
          · exact absurd rfl hsne
          · exact @Placement.at_getD c hp hv hvlt s h1 hsne
        · have : c1.buckets.getD bi [] = c.buckets.getD bi [] := by
            rw [hc1]
            exact getD_set_ne c.buckets hbihv b1 []
          rw [this] at hs
          exact hp bi (List.mem_range.mpr hbi) s hs hsne
    · push_neg at hin
      have hnone : ∀ s ∈ c.buckets.getD hv zeroBucket, s.1 ≠ k := hin
      have hstep : deleteLoop k (hv :: rest) c = deleteLoop k rest c := by
        rw [deleteLoop, deleteFromBucket_not_found hnone]
        rfl
      obtain ⟨hv2, hv2mem, hv2ex⟩ := hex
      have hv2rest : hv2 ∈ rest := by
        rcases List.mem_cons.mp hv2mem with rfl | h1
        · obtain ⟨s, hsmem, hsk⟩ := hv2ex
          exact absurd hsk (hnone s hsmem)
        · exact h1
      obtain ⟨c1, heq, hrest⟩ := ih (fun x hx => hvalid x (by simp [hx])) ⟨hv2, hv2rest, hv2ex⟩
      exact ⟨c1, hstep.trans heq, hrest⟩

/-! ## `tryAdd` specification -/

theorem findIdx?_some_aux {p : Slot → Bool} :
    ∀ (l : List Slot) (j i : ℕ), l.findIdx? p j = some i →
      j ≤ i ∧ i - j < l.length ∧ p (l.getD (i - j) (0, 0)) = true := by
  intro l
  induction l with
  | nil => intro j i h; simp [List.findIdx?] at h
  | cons s rest ih =>
    intro j i h
    rw [List.findIdx?] at h
    by_cases hp : p s
    · rw [if_pos hp] at h
      obtain rfl := Option.some.inj h
      simpa using hp
    · rw [if_neg hp] at h
      obtain ⟨h1, h2, h3⟩ := ih (j + 1) i h
      refine ⟨by omega, by simp; omega, ?_⟩
      have : i - j = (i - (j + 1)) + 1 := by omega
      rw [this, List.getD_cons_succ]
      exact h3

theorem findIdx?_zero_some {b : Bucket} {i : ℕ}
    (h : b.findIdx? (fun s => s.1 == 0) = some i) :
    i < b.length ∧ ((b.getD i (0, 0)).1 = 0) := by
  obtain ⟨-, h2, h3⟩ := findIdx?_some_aux b 0 i h
  simp only [Nat.sub_zero] at h2 h3
  exact ⟨h2, by simpa using h3⟩

theorem findIdx?_zero_none {b : Bucket} (h : b.findIdx? (fun s => s.1 == 0) = none) :
    bucketFull b := by
  intro s hs
  have := List.findIdx?_eq_none_iff.mp h s hs
  simpa using this

theorem tryAddLoop_false {k : Key} {v : Value} {ig : Bool} {ex : ℕ} {c c1 : Cuckoo} :
    ∀ {h : List ℕ}, tryAddLoop k v ig ex h c = (false, c1) →
      c1 = c ∧ ∀ hv ∈ h, ¬(ig = true ∧ ex = hv) → bucketFull (c.buckets.getD hv zeroBucket) := by
  intro h
  induction h with
  | nil =>
    intro heq
    obtain ⟨-, rfl⟩ := Prod.mk.injEq .. ▸ heq
    exact ⟨rfl, by simp⟩
  | cons hv rest ih =>
    intro heq
    simp only [tryAddLoop] at heq
    by_cases hskip : ig = true ∧ ex = hv
    · rw [if_pos hskip] at heq
      obtain ⟨h1, h2⟩ := ih heq
      refine ⟨h1, fun x hx hnx => ?_⟩
      rcases List.mem_cons.mp hx with rfl | hxr
      · exact absurd hskip hnx
      · exact h2 x hxr hnx
    · rw [if_neg hskip] at heq
      cases hfind : (c.buckets.getD hv zeroBucket).findIdx? (fun s => s.1 == 0) with
      | some i => rw [hfind] at heq; simp at heq
      | none =>
        rw [hfind] at heq
        obtain ⟨h1, h2⟩ := ih heq
        refine ⟨h1, fun x hx hnx => ?_⟩
        rcases List.mem_cons.mp hx with rfl | hxr
        · exact findIdx?_zero_none hfind
        · exact h2 x hxr hnx

theorem tryAddLoop_true {k : Key} {v : Value} {ig : Bool} {ex : ℕ} {c c1 : Cuckoo} :
    ∀ {h : List ℕ}, tryAddLoop k v ig ex h c = (true, c1) →
      ∃ hv ∈ h, ∃ i, i < (c.buckets.getD hv zeroBucket).length ∧
        ((c.buckets.getD hv zeroBucket).getD i (0, 0)).1 = 0 ∧
        c1 = setBucket c hv ((c.buckets.getD hv zeroBucket).set i (k, v)) := by
  intro h
  induction h with
  | nil => intro heq; simp [tryAddLoop] at heq
  | cons hv rest ih =>
    intro heq
    simp only [tryAddLoop] at heq
    by_cases hskip : ig = true ∧ ex = hv
    · rw [if_pos hskip] at heq
      obtain ⟨x, hx, hrest⟩ := ih heq
      exact ⟨x, by simp [hx], hrest⟩
    · rw [if_neg hskip] at heq
      cases hfind : (c.buckets.getD hv zeroBucket).findIdx? (fun s => s.1 == 0) with
      | some i =>
        rw [hfind] at heq
        obtain ⟨hi, hzero⟩ := findIdx?_zero_some hfind
        obtain ⟨-, rfl⟩ := Prod.mk.injEq .. ▸ heq
        exact ⟨hv, by simp, i, hi, hzero, rfl⟩
      | none =>
        rw [hfind] at heq
        obtain ⟨x, hx, hrest⟩ := ih heq
        exact ⟨x, by simp [hx], hrest⟩

/-- A failed `tryAdd` with a non-zero key changes nothing and certifies
that every non-excepted candidate bucket is full. -/
theorem tryAdd_false_spec {c c1 : Cuckoo} {k : Key} {v : Value} {h : List ℕ} {ig : Bool}
    {ex : ℕ} (hk0 : k ≠ 0) (heq : tryAdd c k v h ig ex = (false, c1)) :
    c1 = c ∧ ∀ hv ∈ h, ¬(ig = true ∧ ex = hv) → bucketFull (c.buckets.getD hv zeroBucket) := by
  rw [tryAdd, if_neg hk0] at heq
  exact tryAddLoop_false heq

/-- A successful `tryAdd` of a fresh non-zero key adds exactly `(k, v)`
to the stored entries and preserves the structural invariants. -/
theorem tryAdd_true_spec {c c1 : Cuckoo} {k : Key} {v : Value} {h : List ℕ} {ig : Bool}
    {ex : ℕ} (hk0 : k ≠ 0) (hb : BucketsWF c) (hu : Uniq c) (hp : Placement c)
    (hknot : k ∉ keysOf c) (hsub : ∀ hv ∈ h, hv ∈ dohash c k)
    (heq : tryAdd c k v h ig ex = (true, c1)) :
    (∃ P Q, allPairs c = P ++ Q ∧ allPairs c1 = P ++ (k, v) :: Q) ∧
      SameCore c1 c ∧ c1.nentries = c.nentries ∧ c1.eitem = c.eitem ∧ c1.ekey = c.ekey ∧
      c1.eval = c.eval ∧ BucketsWF c1 ∧ Uniq c1 ∧ Placement c1 := by
  rw [tryAdd, if_neg hk0] at heq
  obtain ⟨hv, hhv, i, hi, hzero, rfl⟩ := tryAddLoop_true heq
  have hvdo : hv ∈ dohash c k := hsub hv hhv
  have hvlt : hv < c.buckets.length := by
    rw [hb.1]
    exact dohash_lt hvdo
  obtain ⟨P, Q, hap, hap1⟩ := allPairs_set_slot c hvlt hi (k, v)
  rw [bucketEntries_singleton, if_pos hzero] at hap
  rw [bucketEntries_singleton, if_neg hk0] at hap1
  simp only [List.append_nil, List.nil_append, List.append_assoc] at hap hap1
  have hPQ : allPairs c = P ++ Q := by simpa using hap
  have hPQ1 : allPairs (setBucket c hv ((c.buckets.getD hv zeroBucket).set i (k, v))) =
      P ++ (k, v) :: Q := by simpa using hap1
  have hkeys : keysOf c = P.map Prod.fst ++ Q.map Prod.fst := by
    rw [keysOf, hPQ]; simp
  have hkeys1 : keysOf (setBucket c hv ((c.buckets.getD hv zeroBucket).set i (k, v))) =
      P.map Prod.fst ++ k :: Q.map Prod.fst := by
    rw [keysOf, hPQ1]; simp
  refine ⟨⟨P, Q, hPQ, hPQ1⟩, ⟨rfl, rfl, rfl, rfl, rfl, rfl, rfl⟩, rfl, rfl, rfl, rfl, ?_, ?_, ?_⟩
  · refine ⟨by rw [setBucket]; simpa using hb.1, fun bb hbb => ?_, hb.2.2⟩
    rcases List.mem_or_eq_of_mem_set hbb with h1 | rfl
    · exact hb.2.1 bb h1
    · rw [List.length_set]
      exact hb.2.1 _ (mem_getD_of_lt c.buckets hv hvlt zeroBucket)
  · rw [Uniq, hkeys1]
    rw [Uniq, hkeys] at hu
    rw [hkeys] at hknot
    exact List.nodup_middle.mpr (List.nodup_cons.mpr ⟨hknot, hu⟩)
  · intro bi hbi s hs hsne
    rw [List.mem_range, setBucket, List.length_set] at hbi
    have hdh : dohash (setBucket c hv ((c.buckets.getD hv zeroBucket).set i (k, v))) =
        dohash c := dohash_congr rfl rfl
    rw [hdh]
    by_cases hbihv : hv = bi
    · subst hbihv
      have hg : (setBucket c hv ((c.buckets.getD hv zeroBucket).set i (k, v))).buckets.getD hv
          [] = (c.buckets.getD hv zeroBucket).set i (k, v) := by
        rw [setBucket]
        exact getD_set_self c.buckets hv hvlt _ []
      rw [hg] at hs
      rcases List.mem_or_eq_of_mem_set hs with h1 | rfl
      · exact @Placement.at_getD c hp hv hvlt s h1 hsne
      · exact hvdo
    · have hg : (setBucket c hv ((c.buckets.getD hv zeroBucket).set i (k, v))).buckets.getD bi
          [] = c.buckets.getD bi [] := by
        rw [setBucket]
        exact getD_set_ne c.buckets hbihv _ []
      rw [hg] at hs
      exact hp bi (List.mem_range.mpr hbi) s hs hsne

/-! ## `tryUpdate` specification -/

/-- Validity of the first-free-slot accumulator of `tryUpdate`: when the
flag is set the recorded position is an empty slot of a probed bucket. -/
def FreeAcc (c : Cuckoo) (H : List ℕ) (fs : Bool) (ib idx : ℕ) : Prop :=
  fs = true → ib ∈ H ∧ idx < (c.buckets.getD ib zeroBucket).length ∧
    ((c.buckets.getD ib zeroBucket).getD idx (0, 0)).1 = 0

theorem tryUpdateSlots_some {k : Key} {hval : ℕ} {b : Bucket} :
    ∀ {l : List Slot} {i : ℕ} {fs : Bool} {ib idx j : ℕ} {fs1 : Bool} {ib1 idx1 : ℕ},
      l = b.drop i → tryUpdateSlots k hval l i fs ib idx = (some j, fs1, ib1, idx1) →
      j < b.length ∧ (b.getD j (0, 0)).1 = k := by
  intro l
  induction l with
  | nil => intro i fs ib idx j fs1 ib1 idx1 hl heq; simp [tryUpdateSlots] at heq
  | cons s rest ih =>
    intro i fs ib idx j fs1 ib1 idx1 hl heq
    have hi : i < b.length := by
      by_contra hge
      rw [List.drop_eq_nil_of_le (by omega)] at hl
      exact List.cons_ne_nil s rest hl
    have hdec := List.drop_eq_getElem_cons hi
    rw [← hl] at hdec
    obtain ⟨hs, hrest⟩ : s = b[i] ∧ rest = b.drop (i + 1) := by
      injection hdec with h1 h2
      exact ⟨h1, h2⟩
    rw [tryUpdateSlots] at heq
    by_cases hk : k = s.1
    · rw [if_pos hk] at heq
      simp only [Prod.mk.injEq] at heq
      obtain ⟨h1, -, -, -⟩ := heq
      obtain rfl := Option.some.inj h1
      refine ⟨hi, ?_⟩
      rw [List.getD_eq_getElem b (0, 0) hi, ← hs, ← hk]
    · rw [if_neg hk] at heq
      by_cases hfree : fs = false ∧ s.1 = 0
      · rw [if_pos hfree] at heq
        exact ih hrest heq
      · rw [if_neg hfree] at heq
        exact ih hrest heq

theorem tryUpdateSlots_none {c : Cuckoo} {k : Key} {hval : ℕ} {H : List ℕ} {b : Bucket}
    (hhv : hval ∈ H) (hb : b = c.buckets.getD hval zeroBucket) :
    ∀ {l : List Slot} {i : ℕ} {fs : Bool} {ib idx : ℕ} {fs1 : Bool} {ib1 idx1 : ℕ},
      l = b.drop i → FreeAcc c H fs ib idx →
      tryUpdateSlots k hval l i fs ib idx = (none, fs1, ib1, idx1) →
      (∀ s ∈ l, s.1 ≠ k) ∧ FreeAcc c H fs1 ib1 idx1 ∧
        (fs1 = false → fs = false ∧ ∀ s ∈ l, s.1 ≠ 0) := by
  intro l
  induction l with
  | nil =>
    intro i fs ib idx fs1 ib1 idx1 hl hacc heq
    rw [tryUpdateSlots] at heq
    simp only [Prod.mk.injEq] at heq
    obtain ⟨-, rfl, rfl, rfl⟩ := heq
    exact ⟨by simp, hacc, fun h1 => ⟨h1, by simp⟩⟩
  | cons s rest ih =>
    intro i fs ib idx fs1 ib1 idx1 hl hacc heq
    have hi : i < b.length := by
      by_contra hge
      rw [List.drop_eq_nil_of_le (by omega)] at hl
      exact List.cons_ne_nil s rest hl
    have hdec := List.drop_eq_getElem_cons hi
    rw [← hl] at hdec
    obtain ⟨hs, hrest⟩ : s = b[i] ∧ rest = b.drop (i + 1) := by
      injection hdec with h1 h2
      exact ⟨h1, h2⟩
    rw [tryUpdateSlots] at heq
    by_cases hk : k = s.1
    · rw [if_pos hk] at heq
      simp at heq
    · rw [if_neg hk] at heq
      by_cases hfree : fs = false ∧ s.1 = 0
      · rw [if_pos hfree] at heq
        have hacc1 : FreeAcc c H true hval i := by
          intro _
          refine ⟨hhv, by rw [← hb]; exact hi, ?_⟩
          rw [← hb, List.getD_eq_getElem b (0, 0) hi, ← hs]
          exact hfree.2
        obtain ⟨ha, ha2, ha3⟩ := ih hrest hacc1 heq
        refine ⟨?_, ha2, fun hf1 => absurd ((ha3 hf1).1) (by simp)⟩
        intro x hx
        rcases List.mem_cons.mp hx with rfl | hxr
        · exact fun he => hk he.symm
        · exact ha x hxr
      · rw [if_neg hfree] at heq
        obtain ⟨ha, ha2, ha3⟩ := ih hrest hacc heq
        refine ⟨?_, ha2, fun hf1 => ?_⟩
        · intro x hx
          rcases List.mem_cons.mp hx with rfl | hxr
          · exact fun he => hk he.symm
          · exact ha x hxr
        · obtain ⟨hfs, hrest0⟩ := ha3 hf1
          refine ⟨hfs, fun x hx => ?_⟩
          rcases List.mem_cons.mp hx with rfl | hxr
          · intro h0
            exact hfree ⟨hfs, h0⟩
          · exact hrest0 x hxr

theorem tryUpdateLoop_true {c : Cuckoo} {k : Key} {v : Value} :
    ∀ {h : List ℕ} {fs : Bool} {ib idx : ℕ} {fs1 : Bool} {ib1 idx1 : ℕ} {c1 : Cuckoo},
      tryUpdateLoop k v h c fs ib idx = (true, fs1, ib1, idx1, c1) →
      ∃ hv ∈ h, ∃ j, j < (c.buckets.getD hv zeroBucket).length ∧
        ((c.buckets.getD hv zeroBucket).getD j (0, 0)).1 = k ∧ c1 = addAt c k v hv j := by
  intro h
  induction h with
  | nil => intro fs ib idx fs1 ib1 idx1 c1 heq; simp [tryUpdateLoop] at heq
  | cons hv rest ih =>
    intro fs ib idx fs1 ib1 idx1 c1 heq
    rw [tryUpdateLoop] at heq
    rcases hscan : tryUpdateSlots k hv (c.buckets.getD hv zeroBucket) 0 fs ib idx with
      ⟨r, fsa, iba, idxa⟩
    rw [hscan] at heq
    cases r with
    | some j =>
      simp only [Prod.mk.injEq] at heq
      obtain ⟨-, -, -, -, rfl⟩ := heq
      obtain ⟨hj, hjk⟩ := tryUpdateSlots_some (List.drop_zero _).symm hscan
      exact ⟨hv, by simp, j, hj, hjk, rfl⟩
    | none =>
      obtain ⟨x, hx, hrest⟩ := ih heq
      exact ⟨x, by simp [hx], hrest⟩

theorem tryUpdateLoop_false {c : Cuckoo} {k : Key} {v : Value} {H : List ℕ} :
    ∀ {h : List ℕ}, (∀ x ∈ h, x ∈ H) →
      ∀ {fs : Bool} {ib idx : ℕ} {fs1 : Bool} {ib1 idx1 : ℕ} {c1 : Cuckoo},
      FreeAcc c H fs ib idx →
      tryUpdateLoop k v h c fs ib idx = (false, fs1, ib1, idx1, c1) →
      c1 = c ∧ (∀ hv ∈ h, ∀ s ∈ c.buckets.getD hv zeroBucket, s.1 ≠ k) ∧
        FreeAcc c H fs1 ib1 idx1 ∧
        (fs1 = false → fs = false ∧ ∀ hv ∈ h, bucketFull (c.buckets.getD hv zeroBucket)) := by
  intro h
  induction h with
  | nil =>
    intro hsub fs ib idx fs1 ib1 idx1 c1 hacc heq
    rw [tryUpdateLoop] at heq
    simp only [Prod.mk.injEq] at heq
    obtain ⟨-, rfl, rfl, rfl, rfl⟩ := heq
    exact ⟨rfl, by simp, hacc, fun h1 => ⟨h1, by simp⟩⟩
  | cons hv rest ih =>
    intro hsub fs ib idx fs1 ib1 idx1 c1 hacc heq
    rw [tryUpdateLoop] at heq
    rcases hscan : tryUpdateSlots k hv (c.buckets.getD hv zeroBucket) 0 fs ib idx with
      ⟨r, fsa, iba, idxa⟩
    rw [hscan] at heq
    cases r with
    | some j => simp at heq
    | none =>
      obtain ⟨hnk, hacc1, himp1⟩ :=
        tryUpdateSlots_none (hsub hv (by simp)) rfl (List.drop_zero _).symm hacc hscan
      obtain ⟨hc1, hnk2, hacc2, himp2⟩ := ih (fun x hx => hsub x (by simp [hx])) hacc1 heq
      refine ⟨hc1, ?_, hacc2, fun hf1 => ?_⟩
      · intro x hx
        rcases List.mem_cons.mp hx with rfl | hxr
        · exact fun s hs => hnk s hs
        · exact hnk2 x hxr
      · obtain ⟨hfsa, hfull⟩ := himp2 hf1
        obtain ⟨hfs, hzero⟩ := himp1 hfsa
        refine ⟨hfs, fun x hx => ?_⟩
        rcases List.mem_cons.mp hx with rfl | hxr
        · exact fun s hs => hzero s hs
        · exact hfull x hxr

/-! ## Shuffle: a Fisher–Yates pass permutes the candidate tuple -/

theorem cons_set_perm {α : Type _} (t : List α) (m : ℕ) (hm : m < t.length) (a : α) (d : α) :
    t.getD m d :: t.set m a ~ a :: t := by
  obtain ⟨ht, hset⟩ := set_decomp t m hm a d
  rw [hset]
  conv_rhs => rw [ht]
  calc t.getD m d :: (t.take m ++ a :: t.drop (m + 1))
      ~ t.getD m d :: a :: (t.take m ++ t.drop (m + 1)) := List.Perm.cons _ List.perm_middle
    _ ~ a :: t.getD m d :: (t.take m ++ t.drop (m + 1)) := List.Perm.swap _ _ _
    _ ~ a :: (t.take m ++ t.getD m d :: t.drop (m + 1)) :=
        List.Perm.cons _ List.perm_middle.symm

theorem set_set_swap_perm {α : Type _} [Inhabited α] :
    ∀ (l : List α) (i j : ℕ), i < l.length → j < l.length →
      (l.set i (l.getD j default)).set j (l.getD i default) ~ l := by
  intro l
  induction l with
  | nil => intro i j hi; simp at hi
  | cons a t ih =>
    intro i j hi hj
    cases i with
    | zero =>
      cases j with
      | zero => simp
      | succ m =>
        have hm : m < t.length := by simpa using hj
        show (t.getD m default :: t).set (m + 1) a ~ a :: t
        show t.getD m default :: t.set m a ~ a :: t
        exact cons_set_perm t m hm a default
    | succ n =>
      cases j with
      | zero =>
        have hn : n < t.length := by simpa using hi
        show t.getD n default :: t.set n a ~ a :: t
        exact cons_set_perm t n hn a default
      | succ m =>
        have hn : n < t.length := by simpa using hi
        have hm : m < t.length := by simpa using hj
        show a :: (t.set n (t.getD m default)).set m (t.getD n default) ~ a :: t
        exact List.Perm.cons a (ih n m hn hm)

theorem listSwap_perm (l : List ℕ) (i j : ℕ) (hi : i < l.length) (hj : j < l.length) :
    listSwap l i j ~ l := by
  have := set_set_swap_perm l i j hi hj
  simpa [listSwap] using this

theorem shuffleAux_perm : ∀ (j : ℕ) (h : List ℕ) (r : ℕ), j < h.length →
    shuffleAux j h r ~ h := by
  intro j
  induction j with
  | zero => intro h r hj; exact List.Perm.refl h
  | succ n ih =>
    intro h r hj
    rw [shuffleAux]
    have hi : (r &&& nhashmask) % (n + 2) < h.length := by
      have : (r &&& nhashmask) % (n + 2) < n + 2 := Nat.mod_lt _ (by omega)
      omega
    have hperm := listSwap_perm h ((r &&& nhashmask) % (n + 2)) (n + 1) hi hj
    have hlen : n < (listSwap h ((r &&& nhashmask) % (n + 2)) (n + 1)).length := by
      rw [hperm.length_eq]
      omega
    exact (ih _ _ hlen).trans hperm

theorem shuffle_perm (h : List ℕ) (r : ℕ) (hlen : h.length = nhash) : shuffle h r ~ h :=
  shuffleAux_perm (nhash - 1) h r (by rw [hlen]; decide)

/-! ## The eviction walk -/

theorem BucketsWF_congr {c1 c : Cuckoo} (hb : c1.buckets = c.buckets) (hs : c1.seed = c.seed)
    (hl : c1.logsize = c.logsize) (h : BucketsWF c) : BucketsWF c1 := by
  rw [BucketsWF, hb, hs, hl]
  exact h

theorem Placement_congr {c1 c : Cuckoo} (hb : c1.buckets = c.buckets) (hs : c1.seed = c.seed)
    (hl : c1.logsize = c.logsize) (h : Placement c) : Placement c1 := by
  intro bi hbi s hmem hne
  rw [hb] at hbi hmem
  rw [dohash_congr hs hl]
  exact h bi hbi s hmem hne

theorem blen_eq : blen = 8 := rfl

theorem bmask_eq : bmask = 7 := rfl

theorem nhash_eq : nhash = 8 := rfl

theorem nhashmask_eq : nhashmask = 7 := rfl

/-- One step of the eviction walk: the incoming pair overwrites a
(necessarily occupied) slot of one of its candidate buckets; the evicted
pair either settles in one of its own candidate buckets (success) or
becomes the new pair in hand, with all its candidate buckets full
(failure).  The stored entries are conserved either way. -/
theorem greedyStep_spec {c : Cuckoo} {k : Key} {v : Value} {h : List ℕ} {g : RNG}
    {got : Bool} {c2 : Cuckoo} {k2 : Key} {v2 : Value} {h2 : List ℕ} {g1 : RNG}
    (hb : BucketsWF c) (hu : Uniq c) (hp : Placement c) (hk0 : k ≠ 0)
    (hknot : k ∉ keysOf c) (hperm : h ~ dohash c k)
    (hfull : ∀ hv ∈ h, bucketFull (c.buckets.getD hv zeroBucket))
    (heq : greedyStep c k v h g = (got, c2, k2, v2, h2, g1)) :
    g1 = (RNG.next63 g).2 ∧ SameCore c2 c ∧ c2.nentries = c.nentries ∧
      c2.eitem = c.eitem ∧ c2.ekey = c.ekey ∧ c2.eval = c.eval ∧
      BucketsWF c2 ∧ Uniq c2 ∧ Placement c2 ∧
      (got = true → allPairs c2 ~ (k, v) :: allPairs c) ∧
      (got = false → (k2, v2) :: allPairs c2 ~ (k, v) :: allPairs c ∧ k2 ≠ 0 ∧
        k2 ∉ keysOf c2 ∧ h2 ~ dohash c2 k2 ∧
        ∀ hv ∈ h2, bucketFull (c2.buckets.getD hv zeroBucket)) := by
  have hlen8 : h.length = nhash := by
    rw [hperm.length_eq, dohash_length, hb.2.2]
  have hshlen : (shuffle h (RNG.next63 g).1).length = nhash := by
    rw [(shuffle_perm h (RNG.next63 g).1 hlen8).length_eq, hlen8]
  have hdlt : walkD g < (shuffle h (RNG.next63 g).1).length := by
    rw [hshlen, nhash_eq]
    have h7 : walkD g ≤ nhashmask := Nat.and_le_right
    rw [nhashmask_eq] at h7
    omega
  have hhvmem : walkHval h g ∈ h := by
    have h1 : walkHval h g ∈ shuffle h (RNG.next63 g).1 :=
      mem_getD_of_lt _ _ hdlt 0
    exact (shuffle_perm h (RNG.next63 g).1 hlen8).subset h1
  have hhvdo : walkHval h g ∈ dohash c k := hperm.subset hhvmem
  have hhvlt : walkHval h g < c.buckets.length := by
    rw [hb.1]
    exact dohash_lt hhvdo
  have hblen : (c.buckets.getD (walkHval h g) zeroBucket).length = blen :=
    hb.2.1 _ (mem_getD_of_lt c.buckets _ hhvlt zeroBucket)
  have hilt : walkI g < (c.buckets.getD (walkHval h g) zeroBucket).length := by
    rw [hblen, blen_eq]
    have h7 : walkI g ≤ bmask := Nat.and_le_right
    rw [bmask_eq] at h7
    omega
  have hsmem : walkSlot c h g ∈ c.buckets.getD (walkHval h g) zeroBucket :=
    mem_getD_of_lt _ _ hilt (0, 0)
  have hsne : (walkSlot c h g).1 ≠ 0 := hfull _ hhvmem _ hsmem
  have hskey : (walkSlot c h g).1 ∈ keysOf c := by
    refine mem_keysOf.mpr ⟨(walkSlot c h g).2, ?_⟩
    exact mem_allPairs_of_slot hhvlt (by rwa [Prod.mk.eta]) hsne
  have hsk : (walkSlot c h g).1 ≠ k := fun he => hknot (he ▸ hskey)
  obtain ⟨P, Q, hap, hap1⟩ := allPairs_set_slot c hhvlt hilt (k, v)
  rw [show ((c.buckets.getD (walkHval h g) zeroBucket).getD (walkI g) (0, 0)) =
    walkSlot c h g from rfl] at hap
  rw [bucketEntries_singleton, if_neg hsne] at hap
  rw [bucketEntries_singleton, if_neg hk0] at hap1
  have hapw : allPairs (walkWrite c k v h g) = P ++ [(k, v)] ++ Q := hap1
  have happ : allPairs c ~ walkSlot c h g :: (P ++ Q) := by
    rw [hap, List.append_assoc]
    exact List.perm_middle
  have happ1 : allPairs (walkWrite c k v h g) ~ (k, v) :: (P ++ Q) := by
    rw [hapw, List.append_assoc]
    exact List.perm_middle
  have hkeysc : keysOf c = P.map Prod.fst ++ (walkSlot c h g).1 :: Q.map Prod.fst := by
    rw [keysOf, hap]
    simp
  have hkeysw : keysOf (walkWrite c k v h g) = P.map Prod.fst ++ k :: Q.map Prod.fst := by
    rw [keysOf, hapw]
    simp
  have hnPQ : ((walkSlot c h g).1 :: (P.map Prod.fst ++ Q.map Prod.fst)).Nodup := by
    have := hu
    rw [Uniq, hkeysc] at this
    exact List.nodup_middle.mp this
  have hknPQ : k ∉ P.map Prod.fst ++ Q.map Prod.fst := by
    intro hmem
    refine hknot ?_
    rw [hkeysc]
    rcases List.mem_append.mp hmem with h1 | h1
    · exact List.mem_append.mpr (Or.inl h1)
    · exact List.mem_append.mpr (Or.inr (by simp [h1]))
  have huw : Uniq (walkWrite c k v h g) := by
    rw [Uniq, hkeysw]
    refine List.nodup_middle.mpr (List.nodup_cons.mpr ⟨hknPQ, ?_⟩)
    exact (List.nodup_cons.mp hnPQ).2
  have hsnotw : (walkSlot c h g).1 ∉ keysOf (walkWrite c k v h g) := by
    rw [hkeysw]
    intro hmem
    rcases List.mem_append.mp hmem with h1 | h1
    · exact (List.nodup_cons.mp hnPQ).1 (List.mem_append.mpr (Or.inl h1))
    · rcases List.mem_cons.mp h1 with h2 | h2
      · exact hsk h2
      · exact (List.nodup_cons.mp hnPQ).1 (List.mem_append.mpr (Or.inr h2))
  have hbw : BucketsWF (walkWrite c k v h g) := by
    refine ⟨by rw [walkWrite]; simpa using hb.1, fun bb hbb => ?_, hb.2.2⟩
    rcases List.mem_or_eq_of_mem_set hbb with h1 | rfl
    · exact hb.2.1 bb h1
    · rw [List.length_set]
      exact hblen
  have hpw : Placement (walkWrite c k v h g) := by
    intro bi hbi s hs hsne1
    rw [List.mem_range, walkWrite, List.length_set] at hbi
    rw [dohash_congr rfl rfl]
    by_cases hbihv : walkHval h g = bi
    · subst hbihv
      have hgth : (walkWrite c k v h g).buckets.getD (walkHval h g) [] =
          (c.buckets.getD (walkHval h g) zeroBucket).set (walkI g) (k, v) := by
        rw [walkWrite]
        exact getD_set_self c.buckets _ hhvlt _ []
      rw [hgth] at hs
      rcases List.mem_or_eq_of_mem_set hs with h1 | rfl
      · exact @Placement.at_getD c hp _ hhvlt s h1 hsne1
      · exact hhvdo
    · have hgth : (walkWrite c k v h g).buckets.getD bi [] = c.buckets.getD bi [] := by
        rw [walkWrite]
        exact getD_set_ne c.buckets hbihv _ []
      rw [hgth] at hs
      exact hp bi (List.mem_range.mpr hbi) s hs hsne1
  have hfullw : ∀ s1 ∈ (c.buckets.getD (walkHval h g) zeroBucket).set (walkI g) (k, v),
      s1.1 ≠ 0 := by
    intro s1 hs1
    rcases List.mem_or_eq_of_mem_set hs1 with h1 | rfl
    · exact hfull _ hhvmem _ h1
    · exact hk0
  rw [greedyStep] at heq
  cases htry : tryAdd (walkWrite c k v h g) (walkSlot c h g).1 (walkSlot c h g).2
      (dohash (walkWrite c k v h g) (walkSlot c h g).1) true (walkHval h g) with
  | mk added c2t =>
    rw [htry] at heq
    cases added with
    | true =>
      simp only [Prod.mk.injEq] at heq
      obtain ⟨rfl, rfl, -, -, -, rfl⟩ := heq
      obtain ⟨⟨P2, Q2, hap2, hap3⟩, hcore, hne, hei, hek, hev, hb2, hu2, hp2⟩ :=
        tryAdd_true_spec hsne hbw huw hpw hsnotw (fun hv hhv => hhv) htry
      refine ⟨rfl, hcore.trans ⟨rfl, rfl, rfl, rfl, rfl, rfl, rfl⟩, hne, hei, hek, hev,
        hb2, hu2, hp2, fun _ => ?_, by simp⟩
      calc allPairs c2t
          ~ (walkSlot c h g) :: allPairs (walkWrite c k v h g) := by
            rw [hap3, hap2, Prod.mk.eta]
            exact List.perm_middle
        _ ~ (walkSlot c h g) :: (k, v) :: (P ++ Q) := List.Perm.cons _ happ1
        _ ~ (k, v) :: (walkSlot c h g) :: (P ++ Q) := List.Perm.swap _ _ _
        _ ~ (k, v) :: allPairs c := List.Perm.cons _ happ.symm
    | false =>
      simp only [Prod.mk.injEq] at heq
      obtain ⟨rfl, rfl, rfl, rfl, rfl, rfl⟩ := heq
      obtain ⟨rfl, hfullinfo⟩ := tryAdd_false_spec hsne htry
      refine ⟨rfl, ⟨rfl, rfl, rfl, rfl, rfl, rfl, rfl⟩, rfl, rfl, rfl, rfl,
        hbw, huw, hpw, by simp, fun _ => ⟨?_, hsne, hsnotw, List.Perm.refl _, ?_⟩⟩
      · calc walkSlot c h g :: allPairs (walkWrite c k v h g)
            ~ (walkSlot c h g) :: (k, v) :: (P ++ Q) := List.Perm.cons _ happ1
          _ ~ (k, v) :: (walkSlot c h g) :: (P ++ Q) := List.Perm.swap _ _ _
          _ ~ (k, v) :: allPairs c := List.Perm.cons _ happ.symm
      · intro hv hhv
        by_cases hveq : walkHval h g = hv
        · subst hveq
          intro s1 hs1
          have hgth : (walkWrite c k v h g).buckets.getD (walkHval h g) zeroBucket =
              (c.buckets.getD (walkHval h g) zeroBucket).set (walkI g) (k, v) := by
            rw [walkWrite]
            exact getD_set_self c.buckets _ hhvlt _ zeroBucket
          rw [hgth] at hs1
          exact hfullw s1 hs1
        · exact hfullinfo hv hhv fun hand => hveq hand.2

theorem greedyStep_rng (c : Cuckoo) (k : Key) (v : Value) (h : List ℕ) (g : RNG) :
    (greedyStep c k v h g).2.2.2.2.2 = (RNG.next63 g).2 := by
  rw [greedyStep]
  rcases htry : tryAdd (walkWrite c k v h g) (walkSlot c h g).1 (walkSlot c h g).2
      (dohash (walkWrite c k v h g) (walkSlot c h g).1) true (walkHval h g) with ⟨a, c2⟩
  cases a <;> rfl

/-- Each iteration of the walk consumes exactly one random draw; a failing
walk consumes its whole budget.  The number of displacement steps of an
invocation is therefore the advance of the random-stream position. -/
theorem greedyLoop_pos : ∀ (fuel : ℕ) (c : Cuckoo) (k : Key) (v : Value) (h : List ℕ)
    (g : RNG), ∃ n, n ≤ fuel ∧ (greedyLoop c k v h g fuel).2.2.pos = g.pos + n ∧
      ((greedyLoop c k v h g fuel).1 = false → n = fuel) := by
  intro fuel
  induction fuel with
  | zero => intro c k v h g; exact ⟨0, le_refl 0, rfl, fun _ => rfl⟩
  | succ m ih =>
    intro c k v h g
    obtain ⟨got, c2, k2, v2, h2, g1, hstep⟩ :
        ∃ got c2 k2 v2 h2 g1, greedyStep c k v h g = (got, c2, k2, v2, h2, g1) :=
      ⟨_, _, _, _, _, _, rfl⟩
    rw [greedyLoop, hstep]
    have hg1 : g1 = (RNG.next63 g).2 := by
      have hr := greedyStep_rng c k v h g
      rw [hstep] at hr
      exact hr
    cases got with
    | true =>
      refine ⟨1, by omega, by rw [hg1]; rfl, fun hf => by simp at hf⟩
    | false =>
      obtain ⟨n, hn, hpos, himp⟩ := ih c2 k2 v2 h2 g1
      refine ⟨n + 1, by omega, ?_, fun hf => by rw [himp hf]⟩
      rw [hpos, hg1]
      show g.pos + 1 + n = g.pos + (n + 1)
      omega

/-- Specification of the eviction walk: on success exactly `(k, v)` has
been added to the stored entries; on failure the walk has parked a
non-zero pair in hand in the suspension fields, and the entries together
with that pair are exactly the old entries plus `(k, v)`. -/
theorem greedyLoop_spec : ∀ (fuel : ℕ) {c : Cuckoo} {k : Key} {v : Value} {h : List ℕ}
    {g : RNG} {got : Bool} {c1 : Cuckoo} {g1 : RNG},
    BucketsWF c → Uniq c → Placement c → k ≠ 0 → k ∉ keysOf c → h ~ dohash c k →
    (∀ hv ∈ h, bucketFull (c.buckets.getD hv zeroBucket)) →
    greedyLoop c k v h g fuel = (got, c1, g1) →
    SameCore c1 c ∧ c1.nentries = c.nentries ∧ BucketsWF c1 ∧ Placement c1 ∧
      (got = true → allPairs c1 ~ (k, v) :: allPairs c ∧ Uniq c1 ∧
        c1.eitem = c.eitem ∧ c1.ekey = c.ekey ∧ c1.eval = c.eval) ∧
      (got = false → c1.eitem = true ∧
        ((c1.ekey, c1.eval) :: allPairs c1) ~ (k, v) :: allPairs c ∧ c1.ekey ≠ 0 ∧
        c1.ekey ∉ keysOf c1 ∧ Uniq c1) := by
  intro fuel
  induction fuel with
  | zero =>
    intro c k v h g got c1 g1 hb hu hp hk0 hknot hperm hfull heq
    rw [greedyLoop] at heq
    simp only [Prod.mk.injEq] at heq
    obtain ⟨rfl, rfl, rfl⟩ := heq
    refine ⟨⟨rfl, rfl, rfl, rfl, rfl, rfl, rfl⟩, rfl,
      BucketsWF_congr rfl rfl rfl hb, Placement_congr rfl rfl rfl hp,
      fun hf => by simp at hf, fun _ => ?_⟩
    refine ⟨rfl, ?_, hk0, ?_, ?_⟩
    · rw [allPairs_congr rfl]
      exact List.Perm.refl _
    · rw [keysOf_congr rfl]
      exact hknot
    · rw [Uniq, keysOf_congr rfl]
      exact hu
  | succ m ih =>
    intro c k v h g got c1 g1 hb hu hp hk0 hknot hperm hfull heq
    rw [greedyLoop] at heq
    obtain ⟨sgot, c2, k2, v2, h2, g2, hstep⟩ :
        ∃ sgot c2 k2 v2 h2 g2, greedyStep c k v h g = (sgot, c2, k2, v2, h2, g2) :=
      ⟨_, _, _, _, _, _, rfl⟩
    rw [hstep] at heq
    obtain ⟨-, hcore, hne, hei, hek, hev, hb2, hu2, hp2, htrue, hfalse⟩ :=
      greedyStep_spec hb hu hp hk0 hknot hperm hfull hstep
    cases sgot with
    | true =>
      simp only [Prod.mk.injEq] at heq
      obtain ⟨rfl, rfl, rfl⟩ := heq
      exact ⟨hcore, hne, hb2, hp2, fun _ => ⟨htrue rfl, hu2, hei, hek, hev⟩,
        fun hf => by simp at hf⟩
    | false =>
      obtain ⟨hcons, hk20, hk2not, hperm2, hfull2⟩ := hfalse rfl
      obtain ⟨icore, ine, ib2, ip2, itrue, ifalse⟩ :=
        ih hb2 hu2 hp2 hk20 hk2not hperm2 hfull2 heq
      refine ⟨icore.trans hcore, ine.trans hne, ib2, ip2, fun hg => ?_, fun hg => ?_⟩
      · obtain ⟨iperm, iu, iei, iek, iev⟩ := itrue hg
        exact ⟨iperm.trans hcons, iu, iei.trans hei, iek.trans hek, iev.trans hev⟩
      · obtain ⟨iei, iperm, iek0, ieknot, iu⟩ := ifalse hg
        exact ⟨iei, iperm.trans hcons, iek0, ieknot, iu⟩

/-! ## `tryInsert` specification -/

/-- A successful in-place update: the stored value of `k` is replaced. -/
theorem tryUpdate_true_spec {c c1 : Cuckoo} {k : Key} {v : Value} {fs1 : Bool} {ib1 idx1 : ℕ}
    (hb : BucketsWF c) (hu : Uniq c) (hp : Placement c) (hk0 : k ≠ 0)
    (heq : tryUpdate c k v (dohash c k) = (true, fs1, ib1, idx1, c1)) :
    (∃ w P Q, allPairs c = P ++ (k, w) :: Q ∧ allPairs c1 = P ++ (k, v) :: Q) ∧
      SameCore c1 c ∧ c1.nentries = c.nentries ∧ c1.eitem = c.eitem ∧ c1.ekey = c.ekey ∧
      c1.eval = c.eval ∧ BucketsWF c1 ∧ Uniq c1 ∧ Placement c1 := by
  obtain ⟨hv, hhv, j, hj, hjk, rfl⟩ := tryUpdateLoop_true heq
  have hvlt : hv < c.buckets.length := by
    rw [hb.1]
    exact dohash_lt hhv
  obtain ⟨P, Q, hap, hap1⟩ := allPairs_set_slot c hvlt hj (k, v)
  have hslot : (c.buckets.getD hv zeroBucket).getD j (0, 0) =
      (k, ((c.buckets.getD hv zeroBucket).getD j (0, 0)).2) := by
    rw [← hjk]
  rw [hslot, bucketEntries_singleton] at hap
  rw [if_neg hk0] at hap
  rw [bucketEntries_singleton, if_neg hk0] at hap1
  simp only [List.append_assoc, List.singleton_append] at hap hap1
  have hapA : allPairs (addAt c k v hv j) = P ++ (k, v) :: Q := hap1
  have hkeys : keysOf c = P.map Prod.fst ++ k :: Q.map Prod.fst := by
    rw [keysOf, hap]
    simp
  have hkeys1 : keysOf (addAt c k v hv j) = P.map Prod.fst ++ k :: Q.map Prod.fst := by
    rw [keysOf, hapA]
    simp
  refine ⟨⟨_, P, Q, hap, hapA⟩, ⟨rfl, rfl, rfl, rfl, rfl, rfl, rfl⟩, rfl, rfl, rfl, rfl,
    ?_, ?_, ?_⟩
  · refine ⟨by rw [addAt]; simpa using hb.1, fun bb hbb => ?_, hb.2.2⟩
    rcases List.mem_or_eq_of_mem_set hbb with h1 | rfl
    · exact hb.2.1 bb h1
    · rw [List.length_set]
      exact hb.2.1 _ (mem_getD_of_lt c.buckets hv hvlt zeroBucket)
  · rw [Uniq, hkeys1, ← hkeys]
    exact hu
  · intro bi hbi s hs hsne
    rw [List.mem_range, addAt, List.length_set] at hbi
    rw [dohash_congr rfl rfl]
    by_cases hbihv : hv = bi
    · subst hbihv
      have hg : (addAt c k v hv j).buckets.getD hv [] =
          (c.buckets.getD hv zeroBucket).set j (k, v) := by
        rw [addAt]
        exact getD_set_self c.buckets hv hvlt _ []
      rw [hg] at hs
      rcases List.mem_or_eq_of_mem_set hs with h1 | rfl
      · exact @Placement.at_getD c hp hv hvlt s h1 hsne
      · exact hhv
    · have hg : (addAt c k v hv j).buckets.getD bi [] = c.buckets.getD bi [] := by
        rw [addAt]
        exact getD_set_ne c.buckets hbihv _ []
      rw [hg] at hs
      exact hp bi (List.mem_range.mpr hbi) s hs hsne

/-- A failed update: the table is unchanged, the key is not stored, and
the reported free slot (or fullness of all candidates) is accurate. -/
theorem tryUpdate_false_spec {c c1 : Cuckoo} {k : Key} {v : Value} {fs1 : Bool} {ib1 idx1 : ℕ}
    (hp : Placement c) (hk0 : k ≠ 0)
    (heq : tryUpdate c k v (dohash c k) = (false, fs1, ib1, idx1, c1)) :
    c1 = c ∧ k ∉ keysOf c ∧
      (fs1 = true → ib1 ∈ dohash c k ∧ idx1 < (c.buckets.getD ib1 zeroBucket).length ∧
        ((c.buckets.getD ib1 zeroBucket).getD idx1 (0, 0)).1 = 0) ∧
      (fs1 = false → ∀ hv ∈ dohash c k, bucketFull (c.buckets.getD hv zeroBucket)) := by
  have hinit : FreeAcc c (dohash c k) false 0 0 := fun hf => by simp at hf
  obtain ⟨hc1eq, hnk, hacc, himp⟩ :=
    tryUpdateLoop_false (fun x hx => hx) hinit heq
  refine ⟨hc1eq, ?_, hacc, fun hf => (himp hf).2⟩
  intro hkmem
  obtain ⟨w, hw⟩ := mem_keysOf.mp hkmem
  obtain ⟨b, hbm, hsb, -⟩ := mem_allPairs.mp hw
  obtain ⟨bi, hbi, rfl⟩ := List.getElem_of_mem hbm
  have hbg : (k, w) ∈ c.buckets.getD bi zeroBucket := by
    rw [List.getD_eq_getElem _ _ hbi]
    exact hsb
  have hbido : bi ∈ dohash c k := @Placement.at_getD c hp bi hbi (k, w) hbg hk0
  exact hnk bi hbido (k, w) hbg rfl

/-- Full specification of the fast path `tryInsert`. -/
theorem tryInsert_spec {c c1 : Cuckoo} {k : Key} {v : Value} {g g1 : RNG} {ok : Bool}
    (hb : BucketsWF c) (hu : Uniq c) (hp : Placement c) (hk0 : k ≠ 0)
    (heq : tryInsert c k v g = (ok, c1, g1)) :
    SameCore c1 c ∧ BucketsWF c1 ∧ Placement c1 ∧
      (ok = true → Uniq c1 ∧ c1.eitem = c.eitem ∧ c1.ekey = c.ekey ∧ c1.eval = c.eval ∧
        ((∃ w P Q, c1.nentries = c.nentries ∧ allPairs c = P ++ (k, w) :: Q ∧
            allPairs c1 = P ++ (k, v) :: Q) ∨
          (k ∉ keysOf c ∧ c1.nentries = c.nentries + 1 ∧
            allPairs c1 ~ (k, v) :: allPairs c))) ∧
      (ok = false → c1.nentries = c.nentries ∧ c1.eitem = true ∧ c1.ekey ≠ 0 ∧
        c1.ekey ∉ keysOf c1 ∧ Uniq c1 ∧ k ∉ keysOf c ∧
        ((c1.ekey, c1.eval) :: allPairs c1) ~ (k, v) :: allPairs c) := by
  rw [tryInsert] at heq
  obtain ⟨up, fs, ib, idx, cu, hup⟩ :
      ∃ up fs ib idx cu, tryUpdate c k v (dohash c k) = (up, fs, ib, idx, cu) :=
    ⟨_, _, _, _, _, rfl⟩
  rw [hup] at heq
  cases up with
  | true =>
    simp only [Prod.mk.injEq] at heq
    obtain ⟨rfl, rfl, rfl⟩ := heq
    obtain ⟨⟨w, P, Q, hap, hap1⟩, hcore, hne, hei, hek, hev, hb1, hu1, hp1⟩ :=
      tryUpdate_true_spec hb hu hp hk0 hup
    exact ⟨hcore, hb1, hp1,
      fun _ => ⟨hu1, hei, hek, hev, Or.inl ⟨w, P, Q, hne, hap, hap1⟩⟩,
      fun hf => by simp at hf⟩
  | false =>
    obtain ⟨hcueq, hknot, haccinfo, hfullinfo⟩ := tryUpdate_false_spec hp hk0 hup
    rw [hcueq] at heq
    cases fs with
    | true =>
      simp only [Prod.mk.injEq] at heq
      obtain ⟨rfl, rfl, rfl⟩ := heq
      obtain ⟨hibdo, hidxlt, hidx0⟩ := haccinfo rfl
      have hiblt : ib < c.buckets.length := by
        rw [hb.1]
        exact dohash_lt hibdo
      obtain ⟨P, Q, hap, hap1⟩ := allPairs_set_slot c hiblt hidxlt (k, v)
      rw [bucketEntries_singleton, if_pos hidx0] at hap
      rw [bucketEntries_singleton, if_neg hk0] at hap1
      simp only [List.append_nil, List.nil_append, List.append_assoc,
        List.singleton_append] at hap hap1
      have hc2 : allPairs { addAt c k v ib idx with nentries := c.nentries + 1 } =
          P ++ (k, v) :: Q := hap1
      have hkeys : keysOf c = P.map Prod.fst ++ Q.map Prod.fst := by
        rw [keysOf, hap]
        simp
      have hkeys2 : keysOf { addAt c k v ib idx with nentries := c.nentries + 1 } =
          P.map Prod.fst ++ k :: Q.map Prod.fst := by
        rw [keysOf, hc2]
        simp
      refine ⟨⟨rfl, rfl, rfl, rfl, rfl, rfl, rfl⟩, ?_, ?_,
        fun _ => ⟨?_, rfl, rfl, rfl, Or.inr ⟨hknot, rfl, ?_⟩⟩, fun hf => by simp at hf⟩
      · refine ⟨by rw [addAt]; simpa using hb.1, fun bb hbb => ?_, hb.2.2⟩
        rcases List.mem_or_eq_of_mem_set hbb with h1 | rfl
        · exact hb.2.1 bb h1
        · rw [List.length_set]
          exact hb.2.1 _ (mem_getD_of_lt c.buckets ib hiblt zeroBucket)
      · intro bi hbi s hs hsne
        rw [List.mem_range, addAt, List.length_set] at hbi
        rw [dohash_congr rfl rfl]
        by_cases hbihv : ib = bi
        · subst hbihv
          have hg : ({ addAt c k v ib idx with
              nentries := c.nentries + 1 } : Cuckoo).buckets.getD ib [] =
                (c.buckets.getD ib zeroBucket).set idx (k, v) := by
            show (c.buckets.set ib ((c.buckets.getD ib zeroBucket).set idx (k, v))).getD ib []
              = _
            exact getD_set_self c.buckets ib hiblt _ []
          rw [hg] at hs
          rcases List.mem_or_eq_of_mem_set hs with h1 | rfl
          · exact @Placement.at_getD c hp ib hiblt s h1 hsne
          · exact hibdo
        · have hg : ({ addAt c k v ib idx with
              nentries := c.nentries + 1 } : Cuckoo).buckets.getD bi [] =
                c.buckets.getD bi [] := by
            show (c.buckets.set ib ((c.buckets.getD ib zeroBucket).set idx (k, v))).getD bi []
              = _
            exact getD_set_ne c.buckets hbihv _ []
          rw [hg] at hs
          exact hp bi (List.mem_range.mpr hbi) s hs hsne
      · rw [Uniq, hkeys2]
        rw [Uniq, hkeys] at hu
        rw [hkeys] at hknot
        exact List.nodup_middle.mpr (List.nodup_cons.mpr ⟨hknot, hu⟩)
      · rw [hc2, hap]
        exact List.perm_middle
    | false =>
      have hfull := hfullinfo rfl
      obtain ⟨wgot, cw, gw, hw⟩ :
          ∃ wgot cw gw, tryGreedyAdd c k v (dohash c k) g = (wgot, cw, gw) :=
        ⟨_, _, _, rfl⟩
      have hwl : greedyLoop c k v (dohash c k) g ((1 + c.logsize) * randomWalkCoefficient) =
          (wgot, cw, gw) := hw
      obtain ⟨hcore, hne, hbw, hpw, htrue, hfalse⟩ :=
        greedyLoop_spec _ hb hu hp hk0 hknot (List.Perm.refl _) hfull hwl
      have heq2 : (match tryGreedyAdd c k v (dohash c k) g with
          | (true, c2, g2) => (true, { c2 with nentries := c2.nentries + 1 }, g2)
          | (false, c2, g2) => (false, c2, g2)) = (ok, c1, g1) := heq
      rw [hw] at heq2
      cases wgot with
      | true =>
        simp only [Prod.mk.injEq] at heq2
        obtain ⟨rfl, rfl, rfl⟩ := heq2
        obtain ⟨hperm, huw, hei, hek, hev⟩ := htrue rfl
        refine ⟨hcore.trans (SameCore.refl c), ?_, ?_,
          fun _ => ⟨?_, hei, hek, hev, Or.inr ⟨hknot, by rw [hne], hperm⟩⟩,
          fun hf => by simp at hf⟩
        · exact BucketsWF_congr rfl rfl rfl hbw
        · exact Placement_congr rfl rfl rfl hpw
        · rw [Uniq, keysOf_congr rfl]
          exact huw
      | false =>
        simp only [Prod.mk.injEq] at heq2
        obtain ⟨rfl, rfl, rfl⟩ := heq2
        obtain ⟨hei, hperm, hek0, heknot, huw⟩ := hfalse rfl
        exact ⟨hcore, hbw, hpw, fun hf => by simp at hf,
          fun _ => ⟨hne, hei, hek0, heknot, huw, hknot, hperm⟩⟩

/-! ## `tryGrow` specification -/

theorem drawSeeds_length : ∀ (n : ℕ) (g : RNG), (drawSeeds n g).1.length = n := by
  intro n
  induction n with
  | zero => intro g; rfl
  | succ m ih =>
    intro g
    rw [drawSeeds]
    simpa using ih _

theorem reseed_eq (c : Cuckoo) (g : RNG) :
    reseed c g = ({ c with seed := (drawSeeds nhash g).1 }, (drawSeeds nhash g).2) := by
  rw [reseed]

theorem alloc_length (n : ℕ) : (alloc n).length = n := List.length_replicate n zeroBucket

theorem alloc_mem {n : ℕ} {b : Bucket} (h : b ∈ alloc n) : b = zeroBucket :=
  List.eq_of_mem_replicate h

theorem bucketEntries_zeroBucket : bucketEntries zeroBucket = [] := by decide

theorem allPairs_alloc {c : Cuckoo} (h : c.buckets = alloc n) : allPairs c = [] := by
  rw [allPairs, h]
  have : ∀ m : ℕ, ((alloc m).map bucketEntries).flatten = ([] : List Slot) := by
    intro m
    induction m with
    | zero => rfl
    | succ j ih =>
      show (bucketEntries zeroBucket :: (alloc j).map bucketEntries).flatten = []
      rw [List.flatten_cons, bucketEntries_zeroBucket, List.nil_append, ih]
  exact this n

/-- The slot loop of the rebuild: a successful pass adds exactly the
occupied slots of the processed list. -/
theorem growBucketSlots_spec : ∀ {bs : List Slot} {c : Cuckoo} {g : RNG} {c1 : Cuckoo}
    {g1 : RNG}, BucketsWF c → Uniq c → Placement c →
    (keysOf c ++ (bucketEntries bs).map Prod.fst).Nodup →
    growBucketSlots bs c g = (true, c1, g1) →
    allPairs c1 ~ bucketEntries bs ++ allPairs c ∧ SameCore c1 c ∧
      c1.nentries = c.nentries ∧ c1.eitem = c.eitem ∧ c1.ekey = c.ekey ∧ c1.eval = c.eval ∧
      BucketsWF c1 ∧ Uniq c1 ∧ Placement c1 := by
  intro bs
  induction bs with
  | nil =>
    intro c g c1 g1 hb hu hp hnd heq
    rw [growBucketSlots] at heq
    simp only [Prod.mk.injEq, true_and] at heq
    obtain ⟨rfl, rfl⟩ := heq
    exact ⟨List.Perm.refl _, SameCore.refl c, rfl, rfl, rfl, rfl, hb, hu, hp⟩
  | cons s rest ih =>
    intro c g c1 g1 hb hu hp hnd heq
    simp only [growBucketSlots] at heq
    by_cases hs0 : s.1 = 0
    · rw [if_pos hs0] at heq
      rw [bucketEntries_cons, if_pos hs0] at hnd ⊢
      exact ih hb hu hp hnd heq
    · rw [if_neg hs0] at heq
      rw [bucketEntries_cons, if_neg hs0] at hnd ⊢
      have hsknot : s.1 ∉ keysOf c := by
        rw [List.nodup_append] at hnd
        intro hmem
        exact hnd.2.2 hmem (by simp)
      have hndrest : ∀ {cx : Cuckoo}, keysOf cx ~ s.1 :: keysOf c →
          (keysOf cx ++ (bucketEntries rest).map Prod.fst).Nodup := by
        intro cx hcx
        have hperm2 : keysOf cx ++ (bucketEntries rest).map Prod.fst ~
            keysOf c ++ s.1 :: (bucketEntries rest).map Prod.fst := by
          calc keysOf cx ++ (bucketEntries rest).map Prod.fst
              ~ (s.1 :: keysOf c) ++ (bucketEntries rest).map Prod.fst :=
                hcx.append (List.Perm.refl _)
            _ ~ keysOf c ++ s.1 :: (bucketEntries rest).map Prod.fst :=
                List.perm_middle.symm
        refine hperm2.symm.nodup ?_
        simpa using hnd
      cases htry : tryAdd c s.1 s.2 (dohash c s.1) false 0 with
      | mk added ca =>
        rw [htry] at heq
        cases added with
        | true =>
          obtain ⟨⟨P, Q, hap, hap1⟩, hcore, hne, hei, hek, hev, hba, hua, hpa⟩ :=
            tryAdd_true_spec hs0 hb hu hp hsknot (fun hv hhv => hhv) htry
          have hperm : allPairs ca ~ s :: allPairs c := by
            rw [hap1, hap, Prod.mk.eta]
            exact List.perm_middle
          have hkeysp : keysOf ca ~ s.1 :: keysOf c := by
            have := hperm.map Prod.fst
            simpa [keysOf] using this
          obtain ⟨iperm, icore, ine, iei, iek, iev, ib, iu, ip⟩ :=
            ih hba hua hpa (hndrest hkeysp) heq
          refine ⟨?_, icore.trans hcore, ine.trans hne, iei.trans hei, iek.trans hek,
            iev.trans hev, ib, iu, ip⟩
          calc allPairs c1
              ~ bucketEntries rest ++ allPairs ca := iperm
            _ ~ bucketEntries rest ++ s :: allPairs c :=
                (List.Perm.refl _).append hperm
            _ ~ s :: (bucketEntries rest ++ allPairs c) := List.perm_middle
        | false =>
          obtain ⟨hcaeq, hfull0⟩ := tryAdd_false_spec hs0 htry
          subst hcaeq
          have hfull : ∀ hv ∈ dohash ca s.1, bucketFull (ca.buckets.getD hv zeroBucket) := by
            intro hv hhv
            exact hfull0 hv hhv fun hand => by simp at hand
          obtain ⟨wgot, cw, gw, hw⟩ :
              ∃ wgot cw gw, tryGreedyAdd ca s.1 s.2 (dohash ca s.1) g = (wgot, cw, gw) :=
            ⟨_, _, _, rfl⟩
          have hwl : greedyLoop ca s.1 s.2 (dohash ca s.1) g
              ((1 + ca.logsize) * randomWalkCoefficient) = (wgot, cw, gw) := hw
          have heq2 : (match tryGreedyAdd ca s.1 s.2 (dohash ca s.1) g with
              | (true, c2, g2) => growBucketSlots rest c2 g2
              | (false, c2, g2) => ((false, c2, g2) : Bool × Cuckoo × RNG)) =
                (true, c1, g1) := heq
          rw [hw] at heq2
          obtain ⟨hcore, hne, hbw, hpw, htrue, hfalse⟩ :=
            greedyLoop_spec _ hb hu hp hs0 hsknot (List.Perm.refl _) hfull hwl
          cases wgot with
          | true =>
            have heq3 : growBucketSlots rest cw gw = (true, c1, g1) := heq2
            obtain ⟨hperm, huw, hei, hek, hev⟩ := htrue rfl
            have hpermS : allPairs cw ~ s :: allPairs ca := by
              rw [← Prod.mk.eta (p := s)] at hperm ⊢
              exact hperm
            have hkeysp : keysOf cw ~ s.1 :: keysOf ca := by
              have := hpermS.map Prod.fst
              simpa [keysOf] using this
            obtain ⟨iperm, icore, ine, iei, iek, iev, ib, iu, ip⟩ :=
              ih hbw huw hpw (hndrest hkeysp) heq3
            refine ⟨?_, icore.trans hcore, ine.trans hne, iei.trans hei, iek.trans hek,
              iev.trans hev, ib, iu, ip⟩
            calc allPairs c1
                ~ bucketEntries rest ++ allPairs cw := iperm
              _ ~ bucketEntries rest ++ s :: allPairs ca :=
                  (List.Perm.refl _).append hpermS
              _ ~ s :: (bucketEntries rest ++ allPairs ca) := List.perm_middle
          | false =>
            have heq3 : ((false, cw, gw) : Bool × Cuckoo × RNG) = (true, c1, g1) := heq2
            simp at heq3

/-- The bucket loop of the rebuild, accumulating over all old buckets. -/
theorem growBuckets_spec : ∀ {bl : List Bucket} {c : Cuckoo} {g : RNG} {c1 : Cuckoo}
    {g1 : RNG}, BucketsWF c → Uniq c → Placement c →
    (keysOf c ++ ((bl.map bucketEntries).flatten).map Prod.fst).Nodup →
    growBuckets bl c g = (true, c1, g1) →
    allPairs c1 ~ (bl.map bucketEntries).flatten ++ allPairs c ∧ SameCore c1 c ∧
      c1.nentries = c.nentries ∧ c1.eitem = c.eitem ∧ c1.ekey = c.ekey ∧ c1.eval = c.eval ∧
      BucketsWF c1 ∧ Uniq c1 ∧ Placement c1 := by
  intro bl
  induction bl with
  | nil =>
    intro c g c1 g1 hb hu hp hnd heq
    rw [growBuckets] at heq
    simp only [Prod.mk.injEq, true_and] at heq
    obtain ⟨rfl, rfl⟩ := heq
    exact ⟨List.Perm.refl _, SameCore.refl c, rfl, rfl, rfl, rfl, hb, hu, hp⟩
  | cons b rest ih =>
    intro c g c1 g1 hb hu hp hnd heq
    rw [growBuckets] at heq
    rw [List.map_cons, List.flatten_cons] at hnd ⊢
    cases hslots : growBucketSlots b c g with
    | mk got1 pair1 =>
      rcases pair1 with ⟨ca, ga⟩
      rw [hslots] at heq
      cases got1 with
      | true =>
        have hnd1 : (keysOf c ++ (bucketEntries b).map Prod.fst).Nodup := by
          have hsub : (keysOf c ++ (bucketEntries b).map Prod.fst).Sublist
              (keysOf c ++ ((bucketEntries b).map Prod.fst ++
                ((rest.map bucketEntries).flatten).map Prod.fst)) :=
            List.Sublist.append (List.Sublist.refl _) (List.sublist_append_left _ _)
          refine hsub.nodup ?_
          simpa using hnd
        obtain ⟨hperm, hcore, hne, hei, hek, hev, hba, hua, hpa⟩ :=
          growBucketSlots_spec hb hu hp hnd1 hslots
        have hkeysp : keysOf ca ~ (bucketEntries b).map Prod.fst ++ keysOf c := by
          have := hperm.map Prod.fst
          simpa [keysOf] using this
        have hnd2 : (keysOf ca ++ ((rest.map bucketEntries).flatten).map Prod.fst).Nodup := by
          have hp2 : keysOf ca ++ ((rest.map bucketEntries).flatten).map Prod.fst ~
              keysOf c ++ ((bucketEntries b).map Prod.fst ++
                ((rest.map bucketEntries).flatten).map Prod.fst) := by
            calc keysOf ca ++ ((rest.map bucketEntries).flatten).map Prod.fst
                ~ ((bucketEntries b).map Prod.fst ++ keysOf c) ++
                    ((rest.map bucketEntries).flatten).map Prod.fst :=
                  hkeysp.append (List.Perm.refl _)
              _ ~ (keysOf c ++ (bucketEntries b).map Prod.fst) ++
                    ((rest.map bucketEntries).flatten).map Prod.fst :=
                  List.perm_append_comm.append (List.Perm.refl _)
              _ = keysOf c ++ ((bucketEntries b).map Prod.fst ++
                    ((rest.map bucketEntries).flatten).map Prod.fst) :=
                  List.append_assoc _ _ _
          refine hp2.symm.nodup ?_
          simpa using hnd
        obtain ⟨iperm, icore, ine, iei, iek, iev, ib, iu, ip⟩ := ih hba hua hpa hnd2 heq
        refine ⟨?_, icore.trans hcore, ine.trans hne, iei.trans hei, iek.trans hek,
          iev.trans hev, ib, iu, ip⟩
        calc allPairs c1
            ~ (rest.map bucketEntries).flatten ++ allPairs ca := iperm
          _ ~ (rest.map bucketEntries).flatten ++ (bucketEntries b ++ allPairs c) :=
              (List.Perm.refl _).append hperm
          _ ~ (bucketEntries b ++ (rest.map bucketEntries).flatten) ++ allPairs c := by
              rw [← List.append_assoc]
              exact (List.perm_append_comm.append (List.Perm.refl _))
      | false =>
        simp only [Prod.mk.injEq] at heq
        exact absurd heq.1 (by simp)

theorem zeroBucket_length : zeroBucket.length = blen := List.length_replicate blen (0, 0)

theorem Placement_of_empty {c : Cuckoo} (h : allPairs c = []) : Placement c := by
  intro bi hbi s hs hsne
  rw [List.mem_range] at hbi
  have : s ∈ allPairs c := by
    refine mem_allPairs_of_slot hbi ?_ hsne
    rwa [getD_default_irrel c.buckets hbi zeroBucket []]
  rw [h] at this
  simp at this

theorem Uniq_of_empty {c : Cuckoo} (h : allPairs c = []) : Uniq c := by
  rw [Uniq, keysOf, h]
  exact List.nodup_nil

/-- A failed rebuild returns the old table unchanged. -/
theorem growRebuild_got_false {cOld cnew1 c1 : Cuckoo} {g1 g2 : RNG} {got : Bool}
    (heq : growRebuild cOld cnew1 g1 = some (got, c1, g2)) (hgot : got = false) :
    c1 = cOld := by
  subst hgot
  rw [growRebuild] at heq
  obtain ⟨rg, cg, gg, hgb⟩ :
      ∃ rg cg gg, growBuckets cOld.buckets cnew1 g1 = (rg, cg, gg) := ⟨_, _, _, rfl⟩
  rw [hgb] at heq
  cases rg with
  | false =>
    simp only [Option.some.injEq, Prod.mk.injEq] at heq
    exact heq.2.1.symm
  | true =>
    have heq2 : (if cg.eitem = true then
        match tryInsert cg cg.ekey cg.eval gg with
        | (false, _, g3) => some (false, cOld, g3)
        | (true, cnew3, g3) => some (true, { cnew3 with eitem := false }, g3)
      else some (true, cg, gg)) = some (false, c1, g2) := heq
    by_cases hei : cg.eitem = true
    · rw [if_pos hei] at heq2
      obtain ⟨ri, ci, gi, hti⟩ :
          ∃ ri ci gi, tryInsert cg cg.ekey cg.eval gg = (ri, ci, gi) := ⟨_, _, _, rfl⟩
      rw [hti] at heq2
      cases ri with
      | false =>
        simp only [Option.some.injEq, Prod.mk.injEq] at heq2
        exact heq2.2.1.symm
      | true => simp at heq2
    · rw [if_neg hei] at heq2
      simp at heq2

/-- A successful rebuild carries over every stored entry of the old table,
consumes the suspended entry (re-adding it last), and leaves a table that
satisfies the structural invariants with the fresh seeds and size. -/
theorem growRebuild_spec {cOld cnew1 c1 : Cuckoo} {g1 g2 : RNG} {got : Bool}
    (hu : Uniq cOld) (hsusp : SuspWF cOld)
    (hbwf : BucketsWF cnew1) (hape : allPairs cnew1 = [])
    (hze : cnew1.zeroIsSet = cOld.zeroIsSet) (hzv : cnew1.zeroValue = cOld.zeroValue)
    (hne : cnew1.nentries = cOld.nentries) (hei : cnew1.eitem = cOld.eitem)
    (hek : cnew1.ekey = cOld.ekey) (hev : cnew1.eval = cOld.eval)
    (heq : growRebuild cOld cnew1 g1 = some (got, c1, g2)) (hgot : got = true) :
    allPairs c1 ~ (if cOld.eitem = true then [(cOld.ekey, cOld.eval)] else []) ++
        allPairs cOld ∧
      c1.eitem = false ∧ c1.zeroIsSet = cOld.zeroIsSet ∧ c1.zeroValue = cOld.zeroValue ∧
      c1.nentries = cOld.nentries + (if cOld.eitem = true then 1 else 0) ∧
      c1.logsize = cnew1.logsize ∧ c1.seed = cnew1.seed ∧
      BucketsWF c1 ∧ Uniq c1 ∧ Placement c1 := by
  subst hgot
  rw [growRebuild] at heq
  obtain ⟨rg, cg, gg, hgb⟩ :
      ∃ rg cg gg, growBuckets cOld.buckets cnew1 g1 = (rg, cg, gg) := ⟨_, _, _, rfl⟩
  rw [hgb] at heq
  cases rg with
  | false => simp at heq
  | true =>
    have hnd : (keysOf cnew1 ++
        ((cOld.buckets.map bucketEntries).flatten).map Prod.fst).Nodup := by
      rw [keysOf, hape]
      simpa [Uniq, keysOf, allPairs] using hu
    have heq2 : (if cg.eitem = true then
        match tryInsert cg cg.ekey cg.eval gg with
        | (false, _, g3) => some (false, cOld, g3)
        | (true, cnew3, g3) => some (true, { cnew3 with eitem := false }, g3)
      else some (true, cg, gg)) = some (true, c1, g2) := heq
    obtain ⟨hperm, hcore, hneg, heig, hekg, hevg, hbg, hug, hpg⟩ :=
      growBuckets_spec hbwf (Uniq_of_empty hape) (Placement_of_empty hape) hnd hgb
    have hpermOld : allPairs cg ~ allPairs cOld := by
      calc allPairs cg ~ (cOld.buckets.map bucketEntries).flatten ++ allPairs cnew1 := hperm
        _ = allPairs cOld ++ [] := by rw [hape, allPairs]
        _ = allPairs cOld := by simp
    have hkeysOld : keysOf cg ~ keysOf cOld := by
      have := hpermOld.map Prod.fst
      simpa [keysOf] using this
    have heio : cg.eitem = cOld.eitem := heig.trans hei
    by_cases heitem : cg.eitem = true
    · rw [if_pos heitem] at heq2
      obtain ⟨ri, ci, gi, hti⟩ :
          ∃ ri ci gi, tryInsert cg cg.ekey cg.eval gg = (ri, ci, gi) := ⟨_, _, _, rfl⟩
      rw [hti] at heq2
      cases ri with
      | false => simp at heq2
      | true =>
        simp only [Option.some.injEq, Prod.mk.injEq] at heq2
        obtain ⟨-, hc1, rfl⟩ := heq2
        have heitemOld : cOld.eitem = true := heio ▸ heitem
        obtain ⟨hek0, heknot⟩ := hsusp heitemOld
        have hek2 : cg.ekey = cOld.ekey := hekg.trans hek
        have hknotg : cg.ekey ∉ keysOf cg := by
          rw [hek2]
          intro hmem
          exact heknot (hkeysOld.subset hmem)
        obtain ⟨hcorei, hbi, hpi, htruei, -⟩ :=
          tryInsert_spec hbg hug hpg (hek2 ▸ hek0) hti
        obtain ⟨hui, heii, heki, hevi, hcases⟩ := htruei rfl
        have hpermi : allPairs ci ~ (cOld.ekey, cOld.eval) :: allPairs cOld := by
          rcases hcases with ⟨w, P, Q, -, hapg, hapi⟩ | ⟨-, -, hpermadd⟩
          · exfalso
            refine hknotg (mem_keysOf.mpr ⟨w, ?_⟩)
            rw [hapg]
            simp
          · calc allPairs ci ~ (cg.ekey, cg.eval) :: allPairs cg := hpermadd
              _ = (cOld.ekey, cOld.eval) :: allPairs cg := by rw [hek2, hevg.trans hev]
              _ ~ (cOld.ekey, cOld.eval) :: allPairs cOld := List.Perm.cons _ hpermOld
        have hnei : ci.nentries = cOld.nentries + 1 := by
          rcases hcases with ⟨w, P, Q, -, hapg, -⟩ | ⟨-, hne1, -⟩
          · exfalso
            refine hknotg (mem_keysOf.mpr ⟨w, ?_⟩)
            rw [hapg]
            simp
          · rw [hne1, hneg.trans hne]
        rw [← hc1]
        refine ⟨?_, rfl, ?_, ?_, ?_, ?_, ?_, ?_, ?_, ?_⟩
        · rw [if_pos heitemOld]
          show allPairs ci ~ _
          rw [allPairs_congr (show ci.buckets = ci.buckets from rfl)]
          simpa using hpermi
        · exact hcorei.2.2.2.1.trans (hcore.2.2.2.1.trans hze)
        · exact hcorei.2.2.1.trans (hcore.2.2.1.trans hzv)
        · rw [if_pos heitemOld]
          exact hnei
        · exact hcorei.1.trans hcore.1
        · exact hcorei.2.1.trans hcore.2.1
        · exact BucketsWF_congr rfl rfl rfl hbi
        · rw [Uniq, keysOf_congr rfl]
          exact hui
        · exact Placement_congr rfl rfl rfl hpi
    · rw [if_neg heitem] at heq2
      simp only [Option.some.injEq, Prod.mk.injEq] at heq2
      obtain ⟨-, rfl, rfl⟩ := heq2
      have heitemOld : cOld.eitem = false := by
        rw [← heio]
        exact Bool.not_eq_true _ |>.mp heitem
      refine ⟨?_, heig.trans (hei.trans heitemOld), hcore.2.2.2.1.trans hze,
        hcore.2.2.1.trans hzv, ?_, hcore.1, hcore.2.1, hbg, hug, hpg⟩
      · rw [heitemOld]
        simpa using hpermOld
      · rw [heitemOld]
        simp [hneg.trans hne]

/-- Closed form of `tryGrow` (the counter updates folded into one record). -/
theorem tryGrow_eq (c : Cuckoo) (δ : ℤ) (g : RNG) :
    tryGrow c δ g =
      if δ < 0 ∧ c.logsize ≤ 8 then some (false, c, (drawSeeds nhash g).2)
      else if ((c.logsize : ℤ) + δ) > hashBits then none
      else growRebuild c
        { c with seed := (drawSeeds nhash g).1,
                 nrehash := if δ = 0 then c.nrehash + 1 else c.nrehash,
                 ngrow := if 0 < δ then c.ngrow + 1 else c.ngrow,
                 nshrink := if δ < 0 then c.nshrink + 1 else c.nshrink,
                 logsize := ((c.logsize : ℤ) + δ).toNat,
                 buckets := alloc (1 <<< ((c.logsize : ℤ) + δ).toNat) }
        (drawSeeds nhash g).2 := by
  by_cases h0 : δ = 0 <;> by_cases h1 : 0 < δ <;> by_cases h2 : δ < 0 <;>
    simp [tryGrow, reseed_eq, h0, h1, h2]

theorem tryGrow_false_spec {c c1 : Cuckoo} {δ : ℤ} {g g1 : RNG}
    (heq : tryGrow c δ g = some (false, c1, g1)) : c1 = c := by
  rw [tryGrow_eq] at heq
  by_cases hg : δ < 0 ∧ c.logsize ≤ 8
  · rw [if_pos hg] at heq
    simp only [Option.some.injEq, Prod.mk.injEq] at heq
    exact heq.2.1.symm
  · rw [if_neg hg] at heq
    by_cases hpanic : ((c.logsize : ℤ) + δ) > hashBits
    · rw [if_pos hpanic] at heq
      simp at heq
    · rw [if_neg hpanic] at heq
      exact growRebuild_got_false heq rfl

/-- A successful `tryGrow` preserves every stored entry and the zero cell,
consumes the suspended entry, moves `logsize` by `δ`, redraws the seeds,
and restores the structural invariants; a shrink only happens from
`logsize ≥ 9`. -/
theorem tryGrow_true_spec {c c1 : Cuckoo} {δ : ℤ} {g g1 : RNG}
    (hu : Uniq c) (hsusp : SuspWF c)
    (heq : tryGrow c δ g = some (true, c1, g1)) :
    allPairs c1 ~ (if c.eitem = true then [(c.ekey, c.eval)] else []) ++ allPairs c ∧
      c1.eitem = false ∧ c1.zeroIsSet = c.zeroIsSet ∧ c1.zeroValue = c.zeroValue ∧
      c1.nentries = c.nentries + (if c.eitem = true then 1 else 0) ∧
      c1.logsize = ((c.logsize : ℤ) + δ).toNat ∧ c1.seed = (drawSeeds nhash g).1 ∧
      BucketsWF c1 ∧ Uniq c1 ∧ Placement c1 ∧ (δ < 0 → 8 < c.logsize) := by
  rw [tryGrow_eq] at heq
  by_cases hg : δ < 0 ∧ c.logsize ≤ 8
  · rw [if_pos hg] at heq
    simp at heq
  · rw [if_neg hg] at heq
    by_cases hpanic : ((c.logsize : ℤ) + δ) > hashBits
    · rw [if_pos hpanic] at heq
      simp at heq
    · rw [if_neg hpanic] at heq
      have hbwf1 : BucketsWF { c with seed := (drawSeeds nhash g).1, nrehash := if δ = 0 then c.nrehash + 1 else c.nrehash, ngrow := if 0 < δ then c.ngrow + 1 else c.ngrow, nshrink := if δ < 0 then c.nshrink + 1 else c.nshrink, logsize := ((c.logsize : ℤ) + δ).toNat, buckets := alloc (1 <<< ((c.logsize : ℤ) + δ).toNat) } := by
        refine ⟨alloc_length _, fun b hb => ?_, drawSeeds_length nhash g⟩
        rw [alloc_mem hb]
        exact zeroBucket_length
      obtain ⟨hpm, h2, h3, h4, h5, h6, h7, h8, h9, h10⟩ :=
        growRebuild_spec hu hsusp hbwf1 (allPairs_alloc rfl) rfl rfl rfl rfl rfl rfl heq rfl
      exact ⟨hpm, h2, h3, h4, h5, h6, h7, h8, h9, h10,
        fun hneg => by omega⟩


theorem growUntil_eq (c : Cuckoo) (g : RNG) (i : ℕ) :
    growUntil c g i =
      match tryGrow c (i : ℤ) g with
      | none => none
      | some (true, c1, g1) => some (c1, g1)
      | some (false, _, g1) => growUntil c g1 (i + 1) := by
  rcases hfuel : hashBits + 1 - i with _ | f
  · have hi : hashBits + 1 ≤ i := by omega
    have htg : tryGrow c (i : ℤ) g = none := by
      rw [tryGrow_eq]
      have h1 : ¬((i : ℤ) < 0 ∧ c.logsize ≤ 8) := by omega
      rw [if_neg h1, if_pos (by omega)]
    rw [growUntil, hfuel, htg]
    rfl
  · rw [growUntil, hfuel]
    have hstep : growUntilAux (f + 1) c g i = match tryGrow c (i : ℤ) g with
        | none => none
        | some (true, c1, g1) => some (c1, g1)
        | some (false, _, g1) => growUntilAux f c g1 (i + 1) := rfl
    rw [hstep]
    rcases htg : tryGrow c (i : ℤ) g with _ | ⟨b, cb, gb⟩
    · rfl
    · cases b with
      | true => rfl
      | false =>
        show growUntilAux f c gb (i + 1) = growUntil c gb (i + 1)
        rw [growUntil]
        congr 1
        omega

theorem growUntil_go (n : ℕ) : ∀ {c : Cuckoo} {g : RNG} {i : ℕ} {c2 : Cuckoo} {g2 : RNG},
    hashBits + 1 - i ≤ n → Uniq c → SuspWF c →
    growUntil c g i = some (c2, g2) →
    allPairs c2 ~ (if c.eitem = true then [(c.ekey, c.eval)] else []) ++ allPairs c ∧
      c2.eitem = false ∧ c2.zeroIsSet = c.zeroIsSet ∧ c2.zeroValue = c.zeroValue ∧
      c2.nentries = c.nentries + (if c.eitem = true then 1 else 0) ∧
      BucketsWF c2 ∧ Uniq c2 ∧ Placement c2 := by
  induction n with
  | zero =>
    intro c g i c2 g2 hn hu hs heq
    rw [growUntil_eq] at heq
    rcases htg : tryGrow c (i : ℤ) g with _ | ⟨b, cb, gb⟩ <;> rw [htg] at heq
    · simp at heq
    · cases b with
      | true =>
        simp only [Option.some.injEq, Prod.mk.injEq] at heq
        obtain ⟨rfl, rfl⟩ := heq
        obtain ⟨h1, h2, h3, h4, h5, -, -, h8, h9, h10, -⟩ := tryGrow_true_spec hu hs htg
        exact ⟨h1, h2, h3, h4, h5, h8, h9, h10⟩
      | false =>
        have hle := tryGrow_nonneg_le c (i : ℤ) g (by positivity) (by rw [htg]; rfl)
        have hi : (i : ℤ) ≤ hashBits := by omega
        omega
  | succ m ih =>
    intro c g i c2 g2 hn hu hs heq
    rw [growUntil_eq] at heq
    rcases htg : tryGrow c (i : ℤ) g with _ | ⟨b, cb, gb⟩ <;> rw [htg] at heq
    · simp at heq
    · cases b with
      | true =>
        simp only [Option.some.injEq, Prod.mk.injEq] at heq
        obtain ⟨rfl, rfl⟩ := heq
        obtain ⟨h1, h2, h3, h4, h5, -, -, h8, h9, h10, -⟩ := tryGrow_true_spec hu hs htg
        exact ⟨h1, h2, h3, h4, h5, h8, h9, h10⟩
      | false =>
        obtain rfl := tryGrow_false_spec htg
        have hle := tryGrow_nonneg_le cb (i : ℤ) g (by positivity) (by rw [htg]; rfl)
        have hi : (i : ℤ) ≤ hashBits := by omega
        exact ih (by omega) hu hs heq

/-- The resize controller preserves the stored entries (the suspended one
re-added), the zero cell, and the structural invariants. -/
theorem growUntil_spec {c : Cuckoo} {g : RNG} {i : ℕ} {c2 : Cuckoo} {g2 : RNG}
    (hu : Uniq c) (hs : SuspWF c) (heq : growUntil c g i = some (c2, g2)) :
    allPairs c2 ~ (if c.eitem = true then [(c.ekey, c.eval)] else []) ++ allPairs c ∧
      c2.eitem = false ∧ c2.zeroIsSet = c.zeroIsSet ∧ c2.zeroValue = c.zeroValue ∧
      c2.nentries = c.nentries + (if c.eitem = true then 1 else 0) ∧
      BucketsWF c2 ∧ Uniq c2 ∧ Placement c2 :=
  growUntil_go (hashBits + 1) (Nat.sub_le _ _) hu hs heq

theorem growUntil_trace_go (n : ℕ) : ∀ {c : Cuckoo} {g : RNG} {i : ℕ} {c2 : Cuckoo}
    {g2 : RNG}, hashBits + 1 - i ≤ n →
    growUntil c g i = some (c2, g2) →
    ∃ j, i ≤ j ∧ ∃ gs : ℕ → RNG, gs i = g ∧
      (∀ m, i ≤ m → m < j → ∃ cm, tryGrow c (m : ℤ) (gs m) = some (false, cm, gs (m + 1))) ∧
      tryGrow c (j : ℤ) (gs j) = some (true, c2, g2) := by
  induction n with
  | zero =>
    intro c g i c2 g2 hn heq
    rw [growUntil_eq] at heq
    rcases htg : tryGrow c (i : ℤ) g with _ | ⟨b, cb, gb⟩ <;> rw [htg] at heq
    · simp at heq
    · cases b with
      | true =>
        simp only [Option.some.injEq, Prod.mk.injEq] at heq
        obtain ⟨rfl, rfl⟩ := heq
        exact ⟨i, le_refl i, fun _ => g, rfl, fun m h1 h2 => absurd h2 (by omega), htg⟩
      | false =>
        have hle := tryGrow_nonneg_le c (i : ℤ) g (by positivity) (by rw [htg]; rfl)
        have hi : (i : ℤ) ≤ hashBits := by omega
        omega
  | succ m ih =>
    intro c g i c2 g2 hn heq
    rw [growUntil_eq] at heq
    rcases htg : tryGrow c (i : ℤ) g with _ | ⟨b, cb, gb⟩ <;> rw [htg] at heq
    · simp at heq
    · cases b with
      | true =>
        simp only [Option.some.injEq, Prod.mk.injEq] at heq
        obtain ⟨rfl, rfl⟩ := heq
        exact ⟨i, le_refl i, fun _ => g, rfl, fun m h1 h2 => absurd h2 (by omega), htg⟩
      | false =>
        obtain rfl := tryGrow_false_spec htg
        have hle := tryGrow_nonneg_le cb (i : ℤ) g (by positivity) (by rw [htg]; rfl)
        have hi : (i : ℤ) ≤ hashBits := by omega
        obtain ⟨j, hij, gs1, hgs1, hfail, hsucc⟩ := ih (by omega) heq
        set gs2 : ℕ → RNG := fun x => if x = i then g else gs1 x with hgs2
        refine ⟨j, by omega, gs2, by simp [hgs2], ?_, ?_⟩
        · intro y hy1 hy2
          by_cases hyi : y = i
          · subst hyi
            have e1 : gs2 y = g := by simp [hgs2]
            have e2 : gs2 (y + 1) = gs1 (y + 1) := by simp [hgs2]
            rw [e1, e2, hgs1]
            exact ⟨cb, htg⟩
          · have e1 : gs2 y = gs1 y := by simp [hgs2, hyi]
            have e2 : gs2 (y + 1) = gs1 (y + 1) := by
              have hne : y + 1 ≠ i := by omega
              simp [hgs2, hne]
            rw [e1, e2]
            exact hfail y (by omega) hy2
        · have e1 : gs2 j = gs1 j := by
            have hne : j ≠ i := by omega
            simp [hgs2, hne]
          rw [e1]
          exact hsucc

/-- The shrink attempt loop of `Delete` preserves the stored entries, the
zero cell and the structural invariants (the table either shrinks in one
successful `tryGrow` or is left unchanged). -/
theorem shrinkLoop_spec : ∀ (i : ℕ) {c : Cuckoo} {g : RNG} {c1 : Cuckoo} {g1 : RNG},
    Uniq c → BucketsWF c → Placement c → c.eitem = false →
    shrinkLoop i c g = some (c1, g1) →
    allPairs c1 ~ allPairs c ∧ c1.nentries = c.nentries ∧ c1.eitem = false ∧
      c1.zeroIsSet = c.zeroIsSet ∧ c1.zeroValue = c.zeroValue ∧
      BucketsWF c1 ∧ Uniq c1 ∧ Placement c1 := by
  intro i
  induction i with
  | zero =>
    intro c g c1 g1 hu hb hp hei heq
    have heq2 : (some (c, g) : Option (Cuckoo × RNG)) = some (c1, g1) := heq
    simp only [Option.some.injEq, Prod.mk.injEq] at heq2
    obtain ⟨rfl, rfl⟩ := heq2
    exact ⟨List.Perm.refl _, rfl, hei, rfl, rfl, hb, hu, hp⟩
  | succ m ih =>
    intro c g c1 g1 hu hb hp hei heq
    have heq2 : (match tryGrow c (-(m + 1 : ℤ)) g with
        | none => none
        | some (true, cc, gg) => some (cc, gg)
        | some (false, cc, gg) => shrinkLoop m cc gg) = some (c1, g1) := heq
    rcases htg : tryGrow c (-(m + 1 : ℤ)) g with _ | ⟨b, cb, gb⟩ <;> rw [htg] at heq2
    · simp at heq2
    · cases b with
      | true =>
        simp only [Option.some.injEq, Prod.mk.injEq] at heq2
        obtain ⟨rfl, rfl⟩ := heq2
        have hsusp : SuspWF c := fun he => absurd (hei.symm.trans he) (by simp)
        obtain ⟨h1, h2, h3, h4, h5, -, -, h8, h9, h10, -⟩ := tryGrow_true_spec hu hsusp htg
        rw [hei] at h1 h5
        simp only [Bool.false_eq_true, if_false, List.nil_append, add_zero] at h1 h5
        exact ⟨h1, h5, h2, h3, h4, h8, h9, h10⟩
      | false =>
        obtain rfl := tryGrow_false_spec htg
        exact ih hu hb hp hei heq2

/-- `Delete` of a non-zero key preserves the structural invariants, the
absent suspended entry, and the zero cell. -/
theorem Delete_spec {c : Cuckoo} {k : Key} {g : RNG} {c1 : Cuckoo} {g1 : RNG}
    (hb : BucketsWF c) (hu : Uniq c) (hp : Placement c) (hei : c.eitem = false)
    (hk0 : k ≠ 0) (heq : Delete c k g = some (c1, g1)) :
    BucketsWF c1 ∧ Uniq c1 ∧ Placement c1 ∧ c1.eitem = false ∧
      c1.zeroIsSet = c.zeroIsSet ∧ c1.zeroValue = c.zeroValue := by
  rw [Delete, if_neg hk0] at heq
  have hmain : ∀ cd : Cuckoo, deleteLoop k (dohash c k) c = cd →
      BucketsWF cd ∧ Uniq cd ∧ Placement cd ∧ cd.eitem = false ∧
        cd.zeroIsSet = c.zeroIsSet ∧ cd.zeroValue = c.zeroValue := by
    intro cd hcd
    by_cases hin : ∃ v, (k, v) ∈ allPairs c
    · obtain ⟨v, hm⟩ := hin
      have hvalid : ∀ hv ∈ dohash c k, hv < c.buckets.length := by
        intro hv hhv
        rw [hb.1]
        exact dohash_lt hhv
      obtain ⟨b, hbm, hsb, -⟩ := mem_allPairs.mp hm
      obtain ⟨bi, hbi, rfl⟩ := List.getElem_of_mem hbm
      have hbg : (k, v) ∈ c.buckets.getD bi zeroBucket := by
        rw [List.getD_eq_getElem _ _ hbi]
        exact hsb
      have hbido : bi ∈ dohash c k := @Placement.at_getD c hp bi hbi (k, v) hbg hk0
      obtain ⟨cdel, hdel, -, -, hcore, heid, -, -, hbd, hud, hpd⟩ :=
        deleteLoop_found hb hu hp hk0 hm (dohash c k) hvalid ⟨bi, hbido, (k, v), hbg, rfl⟩
      rw [hdel] at hcd
      subst hcd
      exact ⟨hbd, hud, hpd, heid.trans hei, hcore.2.2.2.1, hcore.2.2.1⟩
    · push_neg at hin
      have hknot : k ∉ keysOf c := by
        intro hmem
        obtain ⟨v, hv⟩ := mem_keysOf.mp hmem
        exact hin v hv
      have hvalid : ∀ hv ∈ dohash c k, hv < c.buckets.length := by
        intro hv hhv
        rw [hb.1]
        exact dohash_lt hhv
      rw [deleteLoop_not_found hvalid hk0 hknot] at hcd
      subst hcd
      exact ⟨hb, hu, hp, hei, rfl, rfl⟩
  obtain ⟨hbd, hud, hpd, heid, hzd, hzvd⟩ := hmain (deleteLoop k (dohash c k) c) rfl
  have heq2 : (if ((1 <<< ((deleteLoop k (dohash c k) c).logsize + bshift - shrinkFactor) :
        ℕ) : ℤ) > (deleteLoop k (dohash c k) c).nentries then
      shrinkLoop shrinkFactor (deleteLoop k (dohash c k) c) g
    else some (deleteLoop k (dohash c k) c, g)) = some (c1, g1) := heq
  by_cases hif : ((1 <<< ((deleteLoop k (dohash c k) c).logsize + bshift - shrinkFactor) :
      ℕ) : ℤ) > (deleteLoop k (dohash c k) c).nentries
  · rw [if_pos hif] at heq2
    obtain ⟨-, -, h3, h4, h5, h6, h7, h8⟩ := shrinkLoop_spec shrinkFactor hud hbd hpd heid heq2
    exact ⟨h6, h7, h8, h3, h4.trans hzd, h5.trans hzvd⟩
  · rw [if_neg hif] at heq2
    simp only [Option.some.injEq, Prod.mk.injEq] at heq2
    obtain ⟨rfl, rfl⟩ := heq2
    exact ⟨hbd, hud, hpd, heid, hzd, hzvd⟩

theorem Insert_zero (fuel : ℕ) (c : Cuckoo) (v : Value) (g : RNG) :
    Insert fuel c 0 v g = some ({ c with zeroIsSet := true, zeroValue := v }, g) := by
  cases fuel <;> rfl

theorem mem_replace_iff {P Q : List Slot} {k k' : Key} {v w v' : Value} (hne : k' ≠ k) :
    (k', v') ∈ P ++ (k, v) :: Q ↔ (k', v') ∈ P ++ (k, w) :: Q := by
  simp [List.mem_append, Prod.mk.injEq, hne]

/-- Full specification of the public `Insert`: on a `some` result the
structural invariants are maintained, the pair `(k, v)` is stored
(out of band for `k = 0`), and every other key's stored value is
untouched. -/
theorem Insert_spec : ∀ (fuel : ℕ) {c : Cuckoo} {k : Key} {v : Value} {g : RNG}
    {c1 : Cuckoo} {g1 : RNG},
    BucketsWF c → Uniq c → Placement c → c.eitem = false →
    Insert fuel c k v g = some (c1, g1) →
    BucketsWF c1 ∧ Uniq c1 ∧ Placement c1 ∧ c1.eitem = false ∧
      c1.zeroIsSet = (if k = 0 then true else c.zeroIsSet) ∧
      c1.zeroValue = (if k = 0 then v else c.zeroValue) ∧
      MapsTo c1 k v ∧
      ∀ k' v', k' ≠ k → (MapsTo c1 k' v' ↔ MapsTo c k' v') := by
  intro fuel
  induction fuel with
  | zero =>
    intro c k v g c1 g1 hb hu hp hei heq
    by_cases hk : k = 0
    · subst hk
      rw [Insert_zero] at heq
      simp only [Option.some.injEq, Prod.mk.injEq] at heq
      obtain ⟨rfl, rfl⟩ := heq
      refine ⟨BucketsWF_congr rfl rfl rfl hb, ?_, Placement_congr rfl rfl rfl hp, hei,
        by simp, by simp, ?_, ?_⟩
      · rw [Uniq, keysOf_congr rfl]
        exact hu
      · rw [MapsTo, if_pos rfl]
        exact ⟨rfl, rfl⟩
      · intro x w hne
        rw [MapsTo, MapsTo, if_neg hne, if_neg hne]
        exact Iff.rfl
    · obtain ⟨km, rfl⟩ := Nat.exists_eq_succ_of_ne_zero hk
      have heq2 : (none : Option (Cuckoo × RNG)) = some (c1, g1) := heq
      simp at heq2
  | succ f ih =>
    intro c k v g c1 g1 hb hu hp hei heq
    by_cases hk : k = 0
    · subst hk
      rw [Insert_zero] at heq
      simp only [Option.some.injEq, Prod.mk.injEq] at heq
      obtain ⟨rfl, rfl⟩ := heq
      refine ⟨BucketsWF_congr rfl rfl rfl hb, ?_, Placement_congr rfl rfl rfl hp, hei,
        by simp, by simp, ?_, ?_⟩
      · rw [Uniq, keysOf_congr rfl]
        exact hu
      · rw [MapsTo, if_pos rfl]
        exact ⟨rfl, rfl⟩
      · intro x w hne
        rw [MapsTo, MapsTo, if_neg hne, if_neg hne]
        exact Iff.rfl
    · obtain ⟨km, rfl⟩ := Nat.exists_eq_succ_of_ne_zero hk
      have heq2 : (match tryInsert c (km + 1) v g with
          | (true, ca, ga) => some (ca, ga)
          | (false, ca, ga) =>
            match growUntil ca ga (if LoadFactor ca < rehashThreshold then 0 else 1) with
            | none => none
            | some (c2, g2) => Insert f c2 (km + 1) v g2) = some (c1, g1) := heq
      obtain ⟨ti, ca, ga, hti⟩ : ∃ ti ca ga, tryInsert c (km + 1) v g = (ti, ca, ga) :=
        ⟨_, _, _, rfl⟩
      rw [hti] at heq2
      have hk0 : (km + 1 : ℕ) ≠ 0 := Nat.succ_ne_zero km
      obtain ⟨hcore, hbi, hpi, htrue, hfalse⟩ := tryInsert_spec hb hu hp hk0 hti
      cases ti with
      | true =>
        simp only [Option.some.injEq, Prod.mk.injEq] at heq2
        obtain ⟨rfl, rfl⟩ := heq2
        obtain ⟨hui, heii, -, -, hcases⟩ := htrue rfl
        refine ⟨hbi, hui, hpi, heii.trans hei, ?_, ?_, ?_, ?_⟩
        · rw [if_neg hk0]
          exact hcore.2.2.2.1
        · rw [if_neg hk0]
          exact hcore.2.2.1
        · rw [MapsTo, if_neg hk0]
          rcases hcases with ⟨w, P, Q, -, -, hap1⟩ | ⟨-, -, hperm⟩
          · rw [hap1]
            simp
          · rw [hperm.mem_iff]
            simp
        · intro x w hne
          by_cases hx : x = 0
          · subst hx
            rw [MapsTo, MapsTo, if_pos rfl, if_pos rfl, hcore.2.2.2.1, hcore.2.2.1]
          · rw [MapsTo, MapsTo, if_neg hx, if_neg hx]
            rcases hcases with ⟨w2, P, Q, -, hap, hap1⟩ | ⟨-, -, hperm⟩
            · rw [hap, hap1]
              exact mem_replace_iff hne
            · rw [hperm.mem_iff]
              simp [Prod.mk.injEq, hne]
      | false =>
        obtain ⟨-, heif, hekf0, heknotf, huf, -, hpermf⟩ := hfalse rfl
        have heq2f : (match growUntil ca ga
              (if LoadFactor ca < rehashThreshold then 0 else 1) with
            | none => none
            | some (c2, g2) => Insert f c2 (km + 1) v g2) = some (c1, g1) := heq2
        cases hgu : growUntil ca ga (if LoadFactor ca < rehashThreshold then 0 else 1) with
        | none =>
          rw [hgu] at heq2f
          simp at heq2f
        | some p =>
          obtain ⟨c2, g2⟩ := p
          rw [hgu] at heq2f
          have heq3 : Insert f c2 (km + 1) v g2 = some (c1, g1) := heq2f
          have hsusp : SuspWF ca := fun _ => ⟨hekf0, heknotf⟩
          obtain ⟨hgp, hge, hgz, hgzv, -, hgb, hgu2, hgpl⟩ := growUntil_spec huf hsusp hgu
          have hgp2 : allPairs c2 ~ (ca.ekey, ca.eval) :: allPairs ca := by
            simpa [heif] using hgp
          obtain ⟨hb1, hu1, hp1, he1, hz1, hzv1, hm1, hpres1⟩ := ih hgb hgu2 hgpl hge heq3
          rw [if_neg hk0] at hz1 hzv1
          refine ⟨hb1, hu1, hp1, he1, ?_, ?_, hm1, ?_⟩
          · rw [if_neg hk0]
            exact hz1.trans (hgz.trans hcore.2.2.2.1)
          · rw [if_neg hk0]
            exact hzv1.trans (hgzv.trans hcore.2.2.1)
          · intro x w hne
            rw [hpres1 x w hne]
            by_cases hx : x = 0
            · subst hx
              rw [MapsTo, MapsTo, if_pos rfl, if_pos rfl, hgz, hcore.2.2.2.1, hgzv,
                hcore.2.2.1]
            · rw [MapsTo, MapsTo, if_neg hx, if_neg hx, hgp2.mem_iff, hpermf.mem_iff]
              simp [Prod.mk.injEq, hne]

/-- `NewCuckoo` builds an empty well-formed table: internal log size
`max(logsize - bshift, 1)`, all-empty buckets, freshly drawn seeds. -/
theorem NewCuckoo_spec {L : ℤ} {g : RNG} {c : Cuckoo} {g1 : RNG}
    (heq : NewCuckoo L g = some (c, g1)) :
    c.logsize = (if L - bshift ≤ 0 then 1 else L - bshift).toNat ∧
      c.buckets.length = 1 <<< c.logsize ∧
      c.seed = (drawSeeds nhash g).1 ∧ g1 = (drawSeeds nhash g).2 ∧
      c.nentries = 0 ∧ c.zeroIsSet = false ∧ c.zeroValue = 0 ∧ c.eitem = false ∧
      allPairs c = [] ∧ BucketsWF c ∧ Uniq c ∧ Placement c := by
  rw [NewCuckoo] at heq
  have heq2 : (if (if (L - bshift : ℤ) ≤ 0 then 1 else L - bshift) > (hashBits : ℤ) then none else some (reseed { logsize := (if (L - bshift : ℤ) ≤ 0 then 1 else L - bshift).toNat, buckets := alloc (1 <<< (if (L - bshift : ℤ) ≤ 0 then 1 else L - bshift).toNat), nentries := 0, ngrow := 0, nshrink := 0, nrehash := 0, zeroValue := 0, zeroIsSet := false, eitem := false, ekey := 0, eval := 0, seed := List.replicate nhash 0 } g)) = some (c, g1) := heq
  by_cases hguard : (if (L - bshift : ℤ) ≤ 0 then 1 else L - bshift) > (hashBits : ℤ)
  · rw [if_pos hguard] at heq2
    simp at heq2
  · rw [if_neg hguard, reseed_eq] at heq2
    simp only [Option.some.injEq, Prod.mk.injEq] at heq2
    obtain ⟨rfl, rfl⟩ := heq2
    have hap : allPairs { logsize := (if (L - bshift : ℤ) ≤ 0 then 1 else L - bshift).toNat, buckets := alloc (1 <<< (if (L - bshift : ℤ) ≤ 0 then 1 else L - bshift).toNat), nentries := 0, ngrow := 0, nshrink := 0, nrehash := 0, zeroValue := 0, zeroIsSet := false, eitem := false, ekey := 0, eval := 0, seed := (drawSeeds nhash g).1 } = ([] : List Slot) := allPairs_alloc rfl
    refine ⟨rfl, ?_, rfl, rfl, rfl, rfl, rfl, rfl, hap, ?_, Uniq_of_empty hap,
      Placement_of_empty hap⟩
    · exact alloc_length _
    · refine ⟨alloc_length _, fun b hb => ?_, drawSeeds_length nhash g⟩
      rw [alloc_mem hb]
      exact zeroBucket_length

/-- `Search` finds exactly what `MapsTo` holds (on a well-formed table). -/
theorem MapsTo_Search {c : Cuckoo} (hwf : StructWF c) {k : Key} {v : Value}
    (hm : MapsTo c k v) : Search c k = (v, true) := by
  by_cases hk : k = 0
  · subst hk
    rw [MapsTo, if_pos rfl] at hm
    obtain ⟨hz, hv⟩ := hm
    rw [Search, if_pos rfl, hz, hv]
    simp
  · rw [MapsTo, if_neg hk] at hm
    exact Search_found hwf hk hm

/-- A sequence of `Insert`s, threaded through the random source. -/
def runInserts (fuel : ℕ) (ops : List (Key × Value)) (st : Option (Cuckoo × RNG)) :
    Option (Cuckoo × RNG) :=
  ops.foldl (fun acc kv => acc.bind fun p => Insert fuel p.1 kv.1 kv.2 p.2) st

theorem runInserts_none (fuel : ℕ) (ops : List (Key × Value)) :
    runInserts fuel ops none = none := by
  induction ops with
  | nil => rfl
  | cons kv rest ihr => exact ihr

theorem runInserts_cons (fuel : ℕ) (kv : Key × Value) (ops : List (Key × Value))
    (st : Option (Cuckoo × RNG)) :
    runInserts fuel (kv :: ops) st =
      runInserts fuel ops (st.bind fun p => Insert fuel p.1 kv.1 kv.2 p.2) := rfl

/-- Distinct-key insert sequences: afterwards every inserted pair is
stored, other keys are untouched, and the invariants hold. -/
theorem runInserts_spec {fuel : ℕ} : ∀ {ops : List (Key × Value)} {c0 : Cuckoo} {h0 : RNG}
    {c : Cuckoo} {g1 : RNG},
    BucketsWF c0 → Uniq c0 → Placement c0 → c0.eitem = false →
    (ops.map Prod.fst).Nodup →
    runInserts fuel ops (some (c0, h0)) = some (c, g1) →
    BucketsWF c ∧ Uniq c ∧ Placement c ∧ c.eitem = false ∧
      (∀ kv ∈ ops, MapsTo c kv.1 kv.2) ∧
      (∀ k' v', k' ∉ ops.map Prod.fst → (MapsTo c k' v' ↔ MapsTo c0 k' v')) := by
  intro ops
  induction ops with
  | nil =>
    intro c0 h0 c g1 hb hu hp he hnd heq
    have heq2 : (some (c0, h0) : Option (Cuckoo × RNG)) = some (c, g1) := heq
    simp only [Option.some.injEq, Prod.mk.injEq] at heq2
    obtain ⟨rfl, rfl⟩ := heq2
    exact ⟨hb, hu, hp, he, fun kv hkv => by simp at hkv, fun k' v' h => Iff.rfl⟩
  | cons kv rest ihr =>
    intro c0 h0 c g1 hb hu hp he hnd heq
    rw [runInserts_cons] at heq
    cases hins : Insert fuel c0 kv.1 kv.2 h0 with
    | none =>
      rw [show ((some (c0, h0)).bind fun p => Insert fuel p.1 kv.1 kv.2 p.2) =
          Insert fuel c0 kv.1 kv.2 h0 from rfl, hins, runInserts_none] at heq
      simp at heq
    | some p =>
      obtain ⟨ca, ga⟩ := p
      rw [show ((some (c0, h0)).bind fun p => Insert fuel p.1 kv.1 kv.2 p.2) =
          Insert fuel c0 kv.1 kv.2 h0 from rfl, hins] at heq
      obtain ⟨hb1, hu1, hp1, he1, -, -, hm1, hpres1⟩ := Insert_spec fuel hb hu hp he hins
      have hnd1 : (rest.map Prod.fst).Nodup := (List.nodup_cons.mp (by simpa using hnd)).2
      have hknotr : kv.1 ∉ rest.map Prod.fst := (List.nodup_cons.mp (by simpa using hnd)).1
      obtain ⟨hbf, huf, hpf, hef, hmemf, hpresf⟩ := ihr hb1 hu1 hp1 he1 hnd1 heq
      refine ⟨hbf, huf, hpf, hef, ?_, ?_⟩
      · intro x hx
        rcases List.mem_cons.mp hx with rfl | hx2
        · exact (hpresf x.1 x.2 hknotr).mpr hm1
        · exact hmemf x hx2
      · intro k' v' hk'
        have hk1 : k' ∉ rest.map Prod.fst := fun h =>
          hk' (by simp only [List.map_cons]; exact List.mem_cons_of_mem _ h)
        have hk2 : k' ≠ kv.1 := fun h =>
          hk' (by simp only [List.map_cons]; exact h ▸ List.mem_cons_self _ _)
        rw [hpresf k' v' hk1]
        exact hpres1 k' v' hk2

/-- An operation of the public mutating interface. -/
inductive Op where
  | ins : Key → Value → Op
  | del : Key → Op
deriving DecidableEq

def opKey : Op → Key
  | .ins k _ => k
  | .del k => k

def runOp (fuel : ℕ) (p : Cuckoo × RNG) : Op → Option (Cuckoo × RNG)
  | .ins k v => Insert fuel p.1 k v p.2
  | .del k => Delete p.1 k p.2

def runOps (fuel : ℕ) (ops : List Op) (st : Option (Cuckoo × RNG)) :
    Option (Cuckoo × RNG) :=
  ops.foldl (fun acc op => acc.bind fun p => runOp fuel p op) st

theorem runOps_none (fuel : ℕ) (ops : List Op) : runOps fuel ops none = none := by
  induction ops with
  | nil => rfl
  | cons op rest ihr => exact ihr

theorem runOps_cons (fuel : ℕ) (op : Op) (ops : List Op) (st : Option (Cuckoo × RNG)) :
    runOps fuel (op :: ops) st =
      runOps fuel ops (st.bind fun p => runOp fuel p op) := rfl

/-- Operations on non-zero keys never touch the zero cell. -/
theorem runOps_nonzero_spec {fuel : ℕ} : ∀ {ops : List Op} {c0 : Cuckoo} {h0 : RNG}
    {c : Cuckoo} {g1 : RNG},
    BucketsWF c0 → Uniq c0 → Placement c0 → c0.eitem = false →
    (∀ op ∈ ops, opKey op ≠ 0) →
    runOps fuel ops (some (c0, h0)) = some (c, g1) →
    BucketsWF c ∧ Uniq c ∧ Placement c ∧ c.eitem = false ∧
      c.zeroIsSet = c0.zeroIsSet ∧ c.zeroValue = c0.zeroValue := by
  intro ops
  induction ops with
  | nil =>
    intro c0 h0 c g1 hb hu hp he hk heq
    have heq2 : (some (c0, h0) : Option (Cuckoo × RNG)) = some (c, g1) := heq
    simp only [Option.some.injEq, Prod.mk.injEq] at heq2
    obtain ⟨rfl, rfl⟩ := heq2
    exact ⟨hb, hu, hp, he, rfl, rfl⟩
  | cons op rest ihr =>
    intro c0 h0 c g1 hb hu hp he hk heq
    rw [runOps_cons] at heq
    cases hop : runOp fuel (c0, h0) op with
    | none =>
      rw [show ((some (c0, h0)).bind fun p => runOp fuel p op) = runOp fuel (c0, h0) op
        from rfl, hop, runOps_none] at heq
      simp at heq
    | some p =>
      obtain ⟨ca, ga⟩ := p
      rw [show ((some (c0, h0)).bind fun p => runOp fuel p op) = runOp fuel (c0, h0) op
        from rfl, hop] at heq
      have hkop : opKey op ≠ 0 := hk op (List.mem_cons_self _ _)
      have hstep : BucketsWF ca ∧ Uniq ca ∧ Placement ca ∧ ca.eitem = false ∧
          ca.zeroIsSet = c0.zeroIsSet ∧ ca.zeroValue = c0.zeroValue := by
        cases op with
        | ins k v =>
          have hins : Insert fuel c0 k v h0 = some (ca, ga) := hop
          have hk0 : k ≠ 0 := hkop
          obtain ⟨hb1, hu1, hp1, he1, hz1, hzv1, -, -⟩ := Insert_spec fuel hb hu hp he hins
          rw [if_neg hk0] at hz1 hzv1
          exact ⟨hb1, hu1, hp1, he1, hz1, hzv1⟩
        | del k =>
          have hdel : Delete c0 k h0 = some (ca, ga) := hop
          have hk0 : k ≠ 0 := hkop
          obtain ⟨hb1, hu1, hp1, he1, hz1, hzv1⟩ := Delete_spec hb hu hp he hk0 hdel
          exact ⟨hb1, hu1, hp1, he1, hz1, hzv1⟩
      obtain ⟨hb1, hu1, hp1, he1, hz1, hzv1⟩ := hstep
      have hkr : ∀ o ∈ rest, opKey o ≠ 0 := fun o ho => hk o (List.mem_cons_of_mem _ ho)
      obtain ⟨hbf, huf, hpf, hef, hzf, hzvf⟩ := ihr hb1 hu1 hp1 he1 hkr heq
      exact ⟨hbf, huf, hpf, hef, hzf.trans hz1, hzvf.trans hzv1⟩


/-! ## Concrete scenarios

A fixed random source (the all-zero stream) and concrete operation
sequences; every value below is computed by the kernel. -/

/-- The deterministic random source used by the concrete scenarios. -/
def g0 : RNG := ⟨fun _ => 0, 0⟩

/-- A placeholder table (default of `Option.getD`; never actually used,
the options below all evaluate to `some`). -/
def cDummy : Cuckoo := ⟨0, [], 0, 0, 0, 0, 0, false, false, 0, 0, []⟩

def c1state : Option (Cuckoo × RNG) :=
  (((NewCuckoo 4 g0).bind fun p => Insert 2 p.1 0 77 p.2).bind fun p =>
    Insert 2 p.1 0 77 p.2).bind fun p => Insert 2 p.1 0 77 p.2

def c3a : Option (Cuckoo × RNG) :=
  ((NewCuckoo 4 g0).bind fun p => Insert 2 p.1 5 50 p.2).bind fun p => Insert 2 p.1 0 77 p.2

def c3b : Option (Cuckoo × RNG) := c3a.bind fun p => Delete p.1 0 p.2

def opsC2 : List (Key × Value) := [(5, 50), (0, 7), (9, 90)]

def stC2 : Cuckoo × RNG := (runInserts 2 opsC2 (NewCuckoo 4 g0)).getD (cDummy, g0)

def opsC4 : List Op := [Op.ins 5 50, Op.del 5, Op.ins 9 90]

def stC4 : Cuckoo × RNG := (runOps 2 opsC4 (NewCuckoo 4 g0)).getD (cDummy, g0)

def stC5 : Cuckoo × RNG := (runInserts 2 [(5, 50), (0, 7)] (NewCuckoo 4 g0)).getD (cDummy, g0)

def growC5 : Bool × Cuckoo × RNG := (tryGrow stC5.1 1 stC5.2).getD (false, cDummy, g0)

def stC6 : Cuckoo × RNG := (runInserts 2 [(5, 50)] (NewCuckoo 12 g0)).getD (cDummy, g0)

def tgC6 : Bool × Cuckoo × RNG := (tryGrow stC6.1 (-2) stC6.2).getD (false, cDummy, g0)

def c6del : Option (Cuckoo × RNG) :=
  (runInserts 2 [(5, 50)] (NewCuckoo 12 g0)).bind fun p => Delete p.1 5 p.2

/-- Sixteen keys that exactly fill the two buckets of `NewCuckoo 4`. -/
def pairs16 : List (Key × Value) :=
  [(1, 2), (2, 4), (3, 6), (4, 8), (5, 10), (6, 12), (7, 14), (8, 16), (9, 18), (10, 20),
    (13, 26), (15, 30), (16, 32), (19, 38), (22, 44), (23, 46)]

def stC7 : Cuckoo × RNG := (runInserts 3 pairs16 (NewCuckoo 4 g0)).getD (cDummy, g0)

def hC7 : List ℕ := dohash stC7.1 29

def walkC7 : Bool × Cuckoo × RNG := tryGreedyAdd stC7.1 29 99 hC7 stC7.2

def tiC8 : Bool × Cuckoo × RNG := tryInsert stC7.1 29 99 stC7.2

def insC8 : Option (Cuckoo × RNG) := Insert 2 stC7.1 29 99 stC7.2

def outC8 : Cuckoo × RNG := insC8.getD (cDummy, g0)

def stC9 : Cuckoo × RNG := (NewCuckoo 12 g0).getD (cDummy, g0)

theorem option_eq_some_getD {α : Type _} {o : Option α} (h : o.isSome = true) (d : α) :
    o = some (o.getD d) := by
  cases o with
  | none => simp at h
  | some x => rfl

/-- Closed form of `NewCuckoo` (the `let` chain folded). -/
theorem NewCuckoo_eq (L : ℤ) (g : RNG) :
    NewCuckoo L g =
      if (if (L - bshift : ℤ) ≤ 0 then 1 else L - bshift) > (hashBits : ℤ) then none
      else some (reseed { logsize := (if (L - bshift : ℤ) ≤ 0 then 1 else L - bshift).toNat, buckets := alloc (1 <<< (if (L - bshift : ℤ) ≤ 0 then 1 else L - bshift).toNat), nentries := 0, ngrow := 0, nshrink := 0, nrehash := 0, zeroValue := 0, zeroIsSet := false, eitem := false, ekey := 0, eval := 0, seed := List.replicate nhash 0 } g) := rfl

/-! ## The claims -/

/-- C1: the spec says `insert(0, v)` increments `nentries` on the
transition from absent, so that after repeated `insert(0, v₀)` both
`lookup(0) = (v₀, true)` and `len() = 1` hold.  The code never counts the
zero cell: after three `Insert(0, 77)` the lookup succeeds but `Len` is
`0`, not `1`. -/
theorem C1_insert_zero_no_count :
    c1state.map (fun p => (Search p.1 0, Len p.1)) = some ((77, true), 0) ∧ (0 : ℤ) ≠ 1 :=
  ⟨by decide, by decide⟩

/-- C2: after any sequence of `Insert`s with pairwise-distinct keys
(key 0 included) that returns, every inserted key is found with the value
written for it; and a further `Insert` of any key makes `Search` return
the new value (in-place replacement on equal keys). -/
theorem C2_distinct_inserts {fuel : ℕ} {ops : List (Key × Value)} {L : ℤ} {g : RNG}
    {c : Cuckoo} {g1 : RNG}
    (hnd : (ops.map Prod.fst).Nodup)
    (heq : runInserts fuel ops (NewCuckoo L g) = some (c, g1)) :
    (∀ kv ∈ ops, Search c kv.1 = (kv.2, true)) ∧
      ∀ fuel2 k2 v2 c2 g2, Insert fuel2 c k2 v2 g1 = some (c2, g2) →
        Search c2 k2 = (v2, true) := by
  cases hnc : NewCuckoo L g with
  | none =>
    rw [hnc, runInserts_none] at heq
    simp at heq
  | some p =>
    obtain ⟨c0, h0⟩ := p
    rw [hnc] at heq
    obtain ⟨-, -, -, -, -, -, -, he0, -, hb0, hu0, hp0⟩ := NewCuckoo_spec hnc
    obtain ⟨hbf, huf, hpf, hef, hmem, -⟩ := runInserts_spec hb0 hu0 hp0 he0 hnd heq
    refine ⟨?_, ?_⟩
    · intro kv hkv
      exact MapsTo_Search ⟨hbf, huf, hpf⟩ (hmem kv hkv)
    · intro fuel2 k2 v2 c2 g2 hins
      obtain ⟨hb2, hu2, hp2, -, -, -, hm2, -⟩ := Insert_spec fuel2 hbf huf hpf hef hins
      exact MapsTo_Search ⟨hb2, hu2, hp2⟩ hm2

theorem C2_witness : Search stC2.1 5 = (50, true) ∧ Search stC2.1 0 = (7, true) ∧
    Search stC2.1 9 = (90, true) := by
  have heq : runInserts 2 opsC2 (NewCuckoo 4 g0) = some (stC2.1, stC2.2) := rfl
  have h := C2_distinct_inserts (by decide) heq
  exact ⟨h.1 (5, 50) (by decide), h.1 (0, 7) (by decide), h.1 (9, 90) (by decide)⟩

/-- C3: the spec says that after `delete(k)` the key is gone and `len`
drops by exactly one when `k` was present.  For `k = 0` the code clears
the zero cell without touching `nentries`: with key 0 present (and one
non-zero key stored), `Len` is `1` both before and after `Delete(0)`,
though the lookup correctly stops finding key 0. -/
theorem C3_delete_zero_no_count :
    c3a.map (fun p => (Search p.1 0, Len p.1)) = some ((77, true), 1) ∧
      c3b.map (fun p => (Search p.1 0, Len p.1)) = some ((0, false), 1) :=
  ⟨by decide, by decide⟩

/-- C4: a table reached from a fresh one by `Insert`/`Delete` operations
whose keys are all non-zero has an absent zero cell: `Search 0` reports
not-found. -/
theorem C4_zero_cell_absent {fuel : ℕ} {ops : List Op} {L : ℤ} {g : RNG} {c : Cuckoo}
    {g1 : RNG}
    (hk : ∀ op ∈ ops, opKey op ≠ 0)
    (heq : runOps fuel ops (NewCuckoo L g) = some (c, g1)) :
    c.zeroIsSet = false ∧ Search c 0 = (0, false) := by
  cases hnc : NewCuckoo L g with
  | none =>
    rw [hnc, runOps_none] at heq
    simp at heq
  | some p =>
    obtain ⟨c0, h0⟩ := p
    rw [hnc] at heq
    obtain ⟨-, -, -, -, -, hz0, -, he0, -, hb0, hu0, hp0⟩ := NewCuckoo_spec hnc
    obtain ⟨-, -, -, -, hzf, -⟩ := runOps_nonzero_spec hb0 hu0 hp0 he0 hk heq
    have hz : c.zeroIsSet = false := hzf.trans hz0
    refine ⟨hz, ?_⟩
    rw [Search, if_pos rfl, hz]
    simp

theorem C4_witness : stC4.1.zeroIsSet = false ∧ Search stC4.1 0 = (0, false) := by
  have heq : runOps 2 opsC4 (NewCuckoo 4 g0) = some (stC4.1, stC4.2) := rfl
  exact C4_zero_cell_absent (by decide) heq

/-- C5: a successful `tryGrow` keeps every stored mapping (the zero cell
included), re-adds a suspended entry into the new table, and clears the
suspension flag. -/
theorem C5_grow_preserves {c c1 : Cuckoo} {δ : ℤ} {g g1 : RNG}
    (hu : Uniq c) (hsusp : SuspWF c)
    (heq : tryGrow c δ g = some (true, c1, g1)) :
    (∀ k v, MapsTo c k v → MapsTo c1 k v) ∧
      (c.eitem = true → (c.ekey, c.eval) ∈ allPairs c1) ∧ c1.eitem = false := by
  obtain ⟨hpm, h2, h3, h4, -, -, -, -, -, -, -⟩ := tryGrow_true_spec hu hsusp heq
  refine ⟨?_, ?_, h2⟩
  · intro k v hm
    by_cases hk : k = 0
    · subst hk
      rw [MapsTo, if_pos rfl] at hm ⊢
      rw [h3, h4]
      exact hm
    · rw [MapsTo, if_neg hk] at hm ⊢
      rw [hpm.mem_iff]
      exact List.mem_append_right _ hm
  · intro he
    rw [hpm.mem_iff, if_pos he]
    simp

theorem C5_witness : MapsTo growC5.2.1 5 50 ∧ MapsTo growC5.2.1 0 7 ∧
    growC5.2.1.eitem = false := by
  have heq : tryGrow stC5.1 1 stC5.2 = some (true, growC5.2.1, growC5.2.2) := rfl
  have h := C5_grow_preserves (show (keysOf stC5.1).Nodup by decide)
    (fun he => absurd he (by decide)) heq
  refine ⟨h.1 5 50 ?_, h.1 0 7 ?_, h.2.2⟩
  · rw [MapsTo, if_neg (by decide : ¬(5 : ℕ) = 0)]
    decide
  · rw [MapsTo, if_pos rfl]
    exact ⟨by decide, by decide⟩

/-- C6: the spec claims shrinking never takes the internal size below 8.
In the code the guard `logsize ≤ 8` is checked before `δ` is applied, so
a successful shrink starts from `logsize ≥ 9` and, with
`δ ≥ -shrinkFactor = -2`, can land on `logsize = 7`: the floor is
`9 - shrinkFactor`, not `8`. -/
theorem C6_shrink_floor {c c1 : Cuckoo} {δ : ℤ} {g g1 : RNG}
    (hu : Uniq c) (hsusp : SuspWF c) (hδl : -(shrinkFactor : ℤ) ≤ δ) (hδ : δ < 0)
    (heq : tryGrow c δ g = some (true, c1, g1)) :
    8 < c.logsize ∧ 9 - shrinkFactor ≤ c1.logsize := by
  obtain ⟨-, -, -, -, -, h6, -, -, -, -, h11⟩ := tryGrow_true_spec hu hsusp heq
  have h8 := h11 hδ
  have hsfz : (shrinkFactor : ℤ) = 2 := rfl
  rw [hsfz] at hδl
  rw [show shrinkFactor = 2 from rfl]
  refine ⟨h8, ?_⟩
  rw [h6]
  omega

theorem C6_witness : 8 < stC6.1.logsize ∧ 9 - shrinkFactor ≤ tgC6.2.1.logsize := by
  have heq : tryGrow stC6.1 (-2) stC6.2 = some (true, tgC6.2.1, tgC6.2.2) := rfl
  exact C6_shrink_floor (show (keysOf stC6.1).Nodup by decide)
    (fun he => absurd he (by decide)) (by decide) (by decide) heq

theorem C6_counterexample : c6del.map (fun p => p.1.logsize) = some 7 ∧ (7 : ℕ) < 8 :=
  ⟨by decide, by decide⟩

/-- C7: the eviction walk performs at most
`(1 + logsize) * randomWalkCoefficient` displacement steps (one random
draw each); on failure it has used the whole budget and its only net
effect beyond rearranging buckets is to park the pair left in hand in the
suspension fields. -/
theorem C7_walk_budget {c : Cuckoo} {k : Key} {v : Value} {h : List ℕ} {g : RNG}
    {got : Bool} {c1 : Cuckoo} {g1 : RNG}
    (hb : BucketsWF c) (hu : Uniq c) (hp : Placement c) (hk0 : k ≠ 0)
    (hknot : k ∉ keysOf c) (hperm : h ~ dohash c k)
    (hfull : ∀ hv ∈ h, bucketFull (c.buckets.getD hv zeroBucket))
    (heq : tryGreedyAdd c k v h g = (got, c1, g1)) :
    ∃ n, n ≤ (1 + c.logsize) * randomWalkCoefficient ∧ g1.pos = g.pos + n ∧
      (got = false → n = (1 + c.logsize) * randomWalkCoefficient ∧
        c1.eitem = true ∧ c1.nentries = c.nentries ∧ SameCore c1 c ∧
        ((c1.ekey, c1.eval) :: allPairs c1) ~ (k, v) :: allPairs c) := by
  have heq2 : greedyLoop c k v h g ((1 + c.logsize) * randomWalkCoefficient) =
      (got, c1, g1) := heq
  obtain ⟨n, hn, hpos, hfuel⟩ :=
    greedyLoop_pos ((1 + c.logsize) * randomWalkCoefficient) c k v h g
  rw [heq2] at hpos hfuel
  obtain ⟨hcore, hne, -, -, -, hfalse⟩ :=
    greedyLoop_spec _ hb hu hp hk0 hknot hperm hfull heq2
  refine ⟨n, hn, hpos, fun hf => ?_⟩
  obtain ⟨hei1, hperm1, -, -, -⟩ := hfalse hf
  exact ⟨hfuel hf, hei1, hne, hcore, hperm1⟩

theorem C7_witness : ∃ n, n ≤ (1 + stC7.1.logsize) * randomWalkCoefficient ∧
    walkC7.2.2.pos = stC7.2.pos + n ∧
    (walkC7.1 = false → n = (1 + stC7.1.logsize) * randomWalkCoefficient ∧
      walkC7.2.1.eitem = true ∧ walkC7.2.1.nentries = stC7.1.nentries ∧
      SameCore walkC7.2.1 stC7.1 ∧
      ((walkC7.2.1.ekey, walkC7.2.1.eval) :: allPairs walkC7.2.1) ~
        (29, 99) :: allPairs stC7.1) := by
  have heq : tryGreedyAdd stC7.1 29 99 hC7 stC7.2 = (walkC7.1, walkC7.2.1, walkC7.2.2) := rfl
  exact C7_walk_budget
    (show stC7.1.buckets.length = 1 <<< stC7.1.logsize ∧
      (∀ b ∈ stC7.1.buckets, b.length = blen) ∧ stC7.1.seed.length = nhash by decide)
    (show (keysOf stC7.1).Nodup by decide)
    (show ∀ bi ∈ List.range stC7.1.buckets.length, ∀ s ∈ stC7.1.buckets.getD bi [],
      s.1 ≠ 0 → bi ∈ dohash stC7.1 s.1 by decide)
    (by decide) (by decide) (List.Perm.refl _)
    (show ∀ hv ∈ hC7, ∀ s ∈ stC7.1.buckets.getD hv zeroBucket, s.1 ≠ 0 by decide) heq

/-- C8: when the fast path of `Insert` fails, the resize controller
starts at `δ = 0` exactly when `LoadFactor < rehashThreshold` (else at
`δ = 1`) and tries strictly increasing deltas — every attempt before the
first success fails, consuming only randomness — until a rebuild
succeeds, after which the insert is retried. -/
theorem C8_resize_controller {fuel : ℕ} {c cf : Cuckoo} {k : Key} {v : Value} {g gf : RNG}
    {out : Cuckoo × RNG}
    (hk0 : k ≠ 0) (hti : tryInsert c k v g = (false, cf, gf))
    (heq : Insert (fuel + 1) c k v g = some out) :
    ∃ i0 : ℕ, (i0 = 0 ↔ LoadFactor cf < rehashThreshold) ∧ (i0 = 0 ∨ i0 = 1) ∧
      ∃ j, i0 ≤ j ∧ ∃ gs : ℕ → RNG, gs i0 = gf ∧
        (∀ m, i0 ≤ m → m < j →
          ∃ cm, tryGrow cf (m : ℤ) (gs m) = some (false, cm, gs (m + 1))) ∧
        ∃ c2 g2, tryGrow cf (j : ℤ) (gs j) = some (true, c2, g2) ∧
          Insert fuel c2 k v g2 = some out := by
  obtain ⟨km, rfl⟩ := Nat.exists_eq_succ_of_ne_zero hk0
  have heq2 : (match tryInsert c (km + 1) v g with
      | (true, ca, ga) => some (ca, ga)
      | (false, ca, ga) =>
        match growUntil ca ga (if LoadFactor ca < rehashThreshold then 0 else 1) with
        | none => none
        | some (c2, g2) => Insert fuel c2 (km + 1) v g2) = some out := heq
  rw [hti] at heq2
  have heq3 : (match growUntil cf gf (if LoadFactor cf < rehashThreshold then 0 else 1) with
      | none => none
      | some (c2, g2) => Insert fuel c2 (km + 1) v g2) = some out := heq2
  cases hgu : growUntil cf gf (if LoadFactor cf < rehashThreshold then 0 else 1) with
  | none =>
    rw [hgu] at heq3
    simp at heq3
  | some p =>
    obtain ⟨c2, g2⟩ := p
    rw [hgu] at heq3
    have heq4 : Insert fuel c2 (km + 1) v g2 = some out := heq3
    obtain ⟨j, hij, gs, hgs, hfail, hsucc⟩ :=
      growUntil_trace_go (hashBits + 1) (Nat.sub_le _ _) hgu
    refine ⟨if LoadFactor cf < rehashThreshold then 0 else 1, ?_, ?_, j, hij, gs, hgs,
      hfail, c2, g2, hsucc, heq4⟩
    · by_cases hl : LoadFactor cf < rehashThreshold <;> simp [hl]
    · by_cases hl : LoadFactor cf < rehashThreshold <;> simp [hl]

theorem C8_witness : ∃ i0 : ℕ, (i0 = 0 ↔ LoadFactor tiC8.2.1 < rehashThreshold) ∧
    (i0 = 0 ∨ i0 = 1) ∧
    ∃ j, i0 ≤ j ∧ ∃ gs : ℕ → RNG, gs i0 = tiC8.2.2 ∧
      (∀ m, i0 ≤ m → m < j →
        ∃ cm, tryGrow tiC8.2.1 (m : ℤ) (gs m) = some (false, cm, gs (m + 1))) ∧
      ∃ c2 g2, tryGrow tiC8.2.1 (j : ℤ) (gs j) = some (true, c2, g2) ∧
        Insert 1 c2 29 99 g2 = some outC8 := by
  have hti : tryInsert stC7.1 29 99 stC7.2 = (false, tiC8.2.1, tiC8.2.2) := rfl
  have heq : Insert (1 + 1) stC7.1 29 99 stC7.2 = some outC8 :=
    option_eq_some_getD (by decide) (cDummy, g0)
  exact C8_resize_controller (by decide) hti heq

/-- C9: the spec says `new(log_size)` allocates `2^log_size` buckets; in
fact the constructor first subtracts `bshift`, so the table has
`2^(log_size - bshift)` buckets of `blen` cells — `2^log_size` cells in
total (for `log_size > bshift`) — with freshly drawn seeds and no
entries. -/
theorem C9_table_shape {L : ℤ} {g : RNG} {c : Cuckoo} {g1 : RNG}
    (heq : NewCuckoo L g = some (c, g1)) (hL : (bshift : ℤ) < L) :
    c.buckets.length = 2 ^ (L - bshift).toNat ∧
      c.buckets.length * blen = 2 ^ L.toNat ∧
      c.seed = (drawSeeds nhash g).1 ∧ Len c = 0 ∧ allPairs c = [] := by
  obtain ⟨hls, hlen, hseed, -, hne, -, -, -, hap, -, -, -⟩ := NewCuckoo_spec heq
  have hb3 : (bshift : ℤ) = 3 := rfl
  have hls2 : c.logsize = (L - bshift).toNat := by
    rw [hls, if_neg (by omega)]
  have h1 : c.buckets.length = 2 ^ (L - bshift).toNat := by
    rw [hlen, hls2, Nat.one_shiftLeft]
  refine ⟨h1, ?_, hseed, ?_, hap⟩
  · rw [h1, blen_eq, show (8 : ℕ) = 2 ^ 3 from rfl, ← pow_add]
    congr 1
    omega
  · rw [Len, hne]

theorem C9_witness : stC9.1.buckets.length = 2 ^ ((12 : ℤ) - bshift).toNat ∧
    stC9.1.buckets.length * blen = 2 ^ (12 : ℤ).toNat ∧
    stC9.1.seed = (drawSeeds nhash g0).1 ∧ Len stC9.1 = 0 ∧ allPairs stC9.1 = [] := by
  have heq : NewCuckoo 12 g0 = some (stC9.1, stC9.2) := rfl
  exact C9_table_shape heq (by decide)

theorem C9_counterexample :
    (NewCuckoo 12 g0).map (fun p => p.1.buckets.length) = some 512 ∧
      (512 : ℕ) ≠ 2 ^ 12 :=
  ⟨by decide, by decide⟩

/-- C10: the spec says an invalid `log_size` (negative, or above `Lmax`)
fails fatally at construction.  Above `Lmax` the constructor does panic,
and the default configuration satisfies the random-bit budget; but a
negative (or zero) `log_size` is silently clamped to internal log size 1
and yields a usable table, contradicting the fatal-failure claim. -/
theorem C10_construction (L : ℤ) (g : RNG) :
    (L ≤ 0 → ∃ c g1, NewCuckoo L g = some (c, g1) ∧ c.logsize = 1) ∧
      ((hashBits : ℤ) + bshift < L → NewCuckoo L g = none) ∧
      nhash * nhashshift + bshift + nhashshift ≤ 63 := by
  have hb3 : (bshift : ℤ) = 3 := rfl
  have hh29 : (hashBits : ℤ) = 29 := rfl
  refine ⟨?_, ?_, by decide⟩
  · intro hL
    have h1 : (if (L - bshift : ℤ) ≤ 0 then 1 else L - bshift) = 1 := if_pos (by omega)
    rw [NewCuckoo_eq, h1, if_neg (by decide : ¬((1 : ℤ) > (hashBits : ℤ))), reseed_eq]
    exact ⟨_, _, rfl, rfl⟩
  · intro hL
    have h1 : (if (L - bshift : ℤ) ≤ 0 then 1 else L - bshift) = L - bshift :=
      if_neg (by omega)
    rw [NewCuckoo_eq, h1, if_pos (by omega)]

theorem C10_counterexample :
    (NewCuckoo (-1) g0).isSome = true ∧
      ((NewCuckoo (-1) g0).bind fun p => Insert 2 p.1 5 50 p.2).map
        (fun p => Search p.1 5) = some (50, true) :=
  ⟨by decide, by decide⟩

end cuckoo
